import Mathlib

/-!
Verification of the widget state-tree reconciliation engine of the iced fork
(`core/src/widget/tree.rs`) and the exit-code handling of the SCTK event loop
(`sctk/src/event_loop/mod.rs`).

The Rust code is shallowly embedded: trees and widgets become inductive types,
in-place mutation becomes explicit state passing, and the thread-local `NAMED`
registry becomes an explicit association-list parameter threaded through the
reconciliation functions (the spec itself recommends this reimplementation
strategy).  Opaque `Box<dyn Any>` state payloads are modelled as `Nat` identity
tokens: two states are "the same instance" exactly when the tokens are equal.
-/

namespace Iced

/-- Modelled from the spec: the `Id` / `Internal` type of `core/src/id.rs` is not
among the provided sources; the spec describes it as "an optional stable,
user-assigned identity (name) distinct from tree position", with the named
variant `Internal::Custom` carrying a string name (plus a numeric component)
and a non-named `Internal::Unique` variant.  Only the distinction
custom-vs-not and the name are ever inspected by `tree.rs`. -/
inductive Internal where
  | unique (n : Nat)
  | custom (n : Nat) (name : String)
deriving DecidableEq, Repr

/-- `pub struct Id(pub Internal)` (modelled from the spec, see `Internal`). -/
structure Id where
  internal : Internal
deriving DecidableEq, Repr

/-- The internal `State` of a widget (`tree.rs`): either `None` or an opaque
boxed payload.  The payload is modelled as a `Nat` identity token. -/
inductive State where
  | none
  | some (v : Nat)
deriving DecidableEq, Repr

/-- A persistent state widget tree (`struct Tree` in `tree.rs`): `tag`
(type identity, modelled as `Nat`), optional `id`, `state`, and children. -/
inductive Tree where
  | mk (tag : Nat) (id : Option Id) (state : State) (children : List Tree)
deriving Repr

def Tree.tag : Tree → Nat
  | .mk t _ _ _ => t

def Tree.id : Tree → Option Id
  | .mk _ i _ _ => i

def Tree.state : Tree → State
  | .mk _ _ s _ => s

def Tree.children : Tree → List Tree
  | .mk _ _ _ c => c

instance : Inhabited Tree := ⟨.mk 0 none .none []⟩

/-- `Tree::empty()`. -/
def Tree.empty : Tree := .mk 0 none .none []

/-- Modelled from the spec: the `Widget` trait object (`core/src/widget.rs` is
not among the provided sources).  The spec's capability surface is
`tag() -> Tag`, `id()`, `state() -> State`, `children() -> Vec<Tree>`,
`diff(&mut Tree)`.  A widget is modelled as a node carrying the values those
methods return, with `children()` building `Tree::new` of each child widget
and the `diff` hook performing the container behaviour the spec describes
("container widgets can recursively reconcile their own children via
`diff_children`"). -/
inductive Widget where
  | mk (tag : Nat) (id : Option Id) (state : State) (children : List Widget)
deriving Repr

def Widget.tag : Widget → Nat
  | .mk t _ _ _ => t

def Widget.id : Widget → Option Id
  | .mk _ i _ _ => i

def Widget.state : Widget → State
  | .mk _ _ s _ => s

def Widget.children : Widget → List Widget
  | .mk _ _ _ c => c

/-- The name of a custom (named) id, if any: the pattern
`Some(Id(Internal::Custom(_, n)))` used throughout `tree.rs`. -/
def customName : Option Id → Option String
  | Option.some ⟨.custom _ n⟩ => Option.some n
  | _ => Option.none

/-- `matches!(id, Some(Id(Internal::Custom(_, _))))`. -/
def isNamed (t : Tree) : Bool :=
  (customName t.id).isSome

mutual
/-- `Tree::new(widget)`: tag, id and state from the widget, children from
`widget.children()`. -/
def Tree.new : Widget → Tree
  | .mk tag idv st cs => .mk tag idv st (Tree.newList cs)

/-- `widget.children()` for a container: `Tree::new` of each child widget. -/
def Tree.newList : List Widget → List Tree
  | [] => []
  | w :: ws => Tree.new w :: Tree.newList ws
end

/-! ## The named-state registry

The thread-local `NAMED: HashMap<Cow<str>, (State, Vec<(usize, Tree)>)>` is
modelled as an association list with unique keys (insertion replaces the
existing binding, as `HashMap::insert` does; the map is only ever accessed
by key, never iterated, so entry order is irrelevant). -/

/-- One registry entry: the extracted `State` and the parent-indexed child
records of a named node. -/
abbrev NamedEntry := State × List (Nat × Tree)

abbrev NamedMap := List (String × NamedEntry)

/-- Key lookup (`HashMap::get`). -/
def NamedMap.lookup : NamedMap → String → Option NamedEntry
  | [], _ => Option.none
  | (k, e) :: m, n => if k = n then Option.some e else NamedMap.lookup m n

/-- Drop the binding for a key. -/
def NamedMap.erase (m : NamedMap) (n : String) : NamedMap :=
  m.filter (fun p => p.1 ≠ n)

/-- `HashMap::insert` (replaces any existing binding for the key). -/
def NamedMap.insertEntry (m : NamedMap) (n : String) (e : NamedEntry) : NamedMap :=
  (n, e) :: m.erase n

/-- `HashMap::remove`, returning the removed entry and the remaining map. -/
def NamedMap.removeGet (m : NamedMap) (n : String) : Option (NamedEntry × NamedMap) :=
  match m.lookup n with
  | Option.none => Option.none
  | Option.some e => Option.some (e, m.erase n)

/-- `named.get_mut(&visit.parent).unwrap().1.push(rec)`: append a child record
to an existing entry.  The `.unwrap()` cannot fail in `take_all_named` (the
parent's entry is always inserted before its children are visited and entries
are never removed during the traversal), so a missing key is a no-op here. -/
def NamedMap.pushRecord (m : NamedMap) (n : String) (rec : Nat × Tree) : NamedMap :=
  m.map (fun p => if p.1 = n then (p.1, (p.2.1, p.2.2 ++ [rec])) else p)

/-! ## `Tree::take_all_named`

The source walks the tree with an explicit stack and a raw-pointer re-visit
trick.  The traversal it realises is a depth-first walk in which every
subtree is finished before any pending sibling, so it is embedded as
ordinary recursion, reproducing the source's visit order exactly:

* the children of a *named* node are pushed via
  `children.iter_mut().rev().enumerate()` and therefore popped left-to-right,
  each unnamed one carrying a `Visit` record whose `index` field is the
  *reversed* enumeration index `len - 1 - position`;
* the children of any other node are pushed in order
  (`children.iter_mut().map(|c| (c, None))`) and therefore popped
  right-to-left;
* an unnamed direct child of a named node is, once its own subtree has been
  processed, moved into its parent's record list
  (`mem::replace(tree, Tree { id, tag, ..Tree::empty() })`), leaving a husk
  with the same id and tag but no state and no children. -/

/-- The husk left behind by `mem::replace(tree, Tree { id, tag, ..Tree::empty() })`. -/
def husk (t : Tree) : Tree := .mk t.tag t.id .none []

mutual
/-- Process one node of the `take_all_named` traversal (the `(tree, None)`
stack items): a named node surrenders its state to the registry and walks its
children with `Visit` records; any other node just recurses. -/
def takeGo : Tree → NamedMap → Tree × NamedMap
  | .mk tag idv st cs, acc =>
    match customName idv with
    | Option.some n =>
      let acc1 := acc.insertEntry n (st, [])
      let r := takeNamedChildren n cs.length 0 cs acc1
      (.mk tag idv .none r.1, r.2)
    | Option.none =>
      let r := takePlainChildren cs acc
      (.mk tag idv st r.1, r.2)

/-- The children of a named node `n` (with `k` children), visited
left-to-right starting at position `j`: a named child is recursed into in
place; an unnamed child is fully processed, recorded under its parent with
the reversed index `k - 1 - j`, and replaced by its husk. -/
def takeNamedChildren : String → Nat → Nat → List Tree → NamedMap → List Tree × NamedMap
  | _, _, _, [], acc => ([], acc)
  | n, k, j, c :: cs, acc =>
    if isNamed c then
      let r1 := takeGo c acc
      let r2 := takeNamedChildren n k (j + 1) cs r1.2
      (r1.1 :: r2.1, r2.2)
    else
      let r1 := takeGo c acc
      let acc2 := r1.2.pushRecord n (k - 1 - j, r1.1)
      let r2 := takeNamedChildren n k (j + 1) cs acc2
      (husk c :: r2.1, r2.2)

/-- The children of an unnamed node, visited right-to-left (they are pushed
onto the stack in order, hence popped in reverse). -/
def takePlainChildren : List Tree → NamedMap → List Tree × NamedMap
  | [], acc => ([], acc)
  | c :: cs, acc =>
    let r1 := takePlainChildren cs acc
    let r2 := takeGo c r1.2
    (r2.1 :: r1.1, r2.2)
end

/-- `Tree::take_all_named`: returns the tree after extraction together with
the registry (the source mutates `self` and returns the map). -/
def Tree.take_all_named (t : Tree) : Tree × NamedMap :=
  takeGo t []

/-! ## `Tree::diff` and `Tree::diff_children_custom`

`diff` consults the registry for a named widget, otherwise compares tags; it
always finishes by invoking the widget's own `diff` hook, which for a
container is `tree.diff_children(&widget_children)`, i.e.
`diff_children_custom` with the children's ids, `Tree::diff` as the diff
closure and `Tree::new` as `new_state`.  The thread-local registry is passed
explicitly and threaded through the recursion in source order.  `set_id` on
the new widget (tag-match branch) mutates only the widget, which nothing in
the remainder of the pass reads, so it is not modelled. -/

/-- The `(id_map, id_list)` fold of `diff_children_custom`, by position:
a custom-named child is inserted into the name map (`HashMap::insert`:
replacing any previous binding, so the *last* sibling with a name wins), any
other child is appended to the positional list. -/
def idMapInsert (im : List (String × Nat)) (n : String) (i : Nat) : List (String × Nat) :=
  (n, i) :: im.filter (fun p => p.1 ≠ n)

def idMapLookup : List (String × Nat) → String → Option Nat
  | [], _ => Option.none
  | (k, i) :: im, n => if k = n then Option.some i else idMapLookup im n

/-- `id_map.remove(name)`, returning the removed position and remaining map. -/
def idMapRemove (im : List (String × Nat)) (n : String) : Option (Nat × List (String × Nat)) :=
  match idMapLookup im n with
  | Option.none => Option.none
  | Option.some i => Option.some (i, im.filter (fun p => p.1 ≠ n))

/-- `new_id.as_ref().and_then(|id| if Custom .. { id_map.remove(name) } else { None })`. -/
def idMapRemoveName (im : List (String × Nat)) : Option String → Option (Nat × List (String × Nat))
  | Option.none => Option.none
  | Option.some n => idMapRemove im n

def buildMapsGo : List Tree → Nat → List (String × Nat) → List Nat →
    List (String × Nat) × List Nat
  | [], _, im, il => (im, il)
  | c :: cs, i, im, il =>
    match customName c.id with
    | Option.some n => buildMapsGo cs (i + 1) (idMapInsert im n i) il
    | Option.none => buildMapsGo cs (i + 1) im (il ++ [i])

def buildMaps (cs : List Tree) : List (String × Nat) × List Nat :=
  buildMapsGo cs 0 [] []

/-- `Vec::insert(i, a)`.  Out-of-range indices would panic in Rust; in the
reconciliation pipeline every insertion is in bounds (insertions happen at
strictly increasing indices, the `j`-th at an index at most `len + j - 1`),
so the out-of-range fallback (append at the end) is unreachable there. -/
def listInsertIdx {α : Type} : List α → Nat → α → List α
  | cs, 0, a => a :: cs
  | [], _ + 1, a => [a]
  | c :: cs, n + 1, a => c :: listInsertIdx cs n a

/-- `for (new_tree, i) in new_trees { self.children.insert(i, new_tree); }` -/
def insertAll : List Tree → List (Tree × Nat) → List Tree
  | cs, [] => cs
  | cs, r :: rest => insertAll (listInsertIdx cs r.2 r.1) rest

/-- The record-reattachment loop of `diff`'s named branch:
`for (old_i, old) in children { ... mem::swap(my_state, &mut old) }`, where a
record whose index is outside either the widget children or the current
children is skipped (`let Some(..) = .. else { continue }`).  The
`debug_assert!(old.tag == my_state.tag)` / `debug_assert!(old.id == new.id)`
checks compile to no-ops in release builds and are not modelled. -/
def applyRecs : List Tree → Nat → List (Nat × Tree) → List Tree
  | cs, _, [] => cs
  | cs, wlen, r :: rest =>
    if r.1 < wlen ∧ r.1 < cs.length then applyRecs (cs.set r.1 r.2) wlen rest
    else applyRecs cs wlen rest

mutual
/-- `Tree::diff(&mut self, new)` with the `NAMED` registry passed explicitly.
The four branches mirror the source: named widget found in the registry
(state swapped in, children either rebuilt on tag/length mismatch or patched
from the records); named widget not found (`needs_reset`); tag match
(children rebuilt only on length mismatch); tag mismatch (`needs_reset`).
`needs_reset` replaces the node by `Tree::new(widget)`.  All branches then
run the widget's `diff` hook (container behaviour: `diff_children`). -/
def Tree.diff : NamedMap → Tree → Widget → NamedMap × Tree
  | m, t, .mk wtag wid wst wcs =>
    let tagMatch : Bool := t.tag == wtag
    let p1 : NamedMap × Tree :=
      match customName wid with
      | Option.some n =>
        match m.removeGet n with
        | Option.some (e, m1) =>
          if !tagMatch || t.children.length != (Tree.newList wcs).length then
            (m1, .mk t.tag t.id e.1 (Tree.newList wcs))
          else
            (m1, .mk t.tag t.id e.1 (applyRecs t.children (Tree.newList wcs).length e.2))
        | Option.none => (m, Tree.new (.mk wtag wid wst wcs))
      | Option.none =>
        if tagMatch then
          if t.children.length != (Tree.newList wcs).length then
            (m, .mk t.tag t.id t.state (Tree.newList wcs))
          else (m, t)
        else (m, Tree.new (.mk wtag wid wst wcs))
    let t1 := p1.2
    let cs0 := if t1.children.length > wcs.length then t1.children.take wcs.length
               else t1.children
    let lenChanged : Bool := cs0.length != wcs.length
    let maps := buildMaps cs0
    let r := diffLoop p1.1 cs0 maps.1 maps.2 0 0 lenChanged wcs []
    (r.1, .mk t1.tag t1.id t1.state (insertAll r.2.1 r.2.2))

/-- The per-new-child loop of `diff_children_custom` (specialised to widget
children, `Tree::diff`, `Tree::new`): a custom-named new child takes the
old child registered under its name; otherwise the next positional
(non-named) old child is used, its id overwritten by the new id when the
lengths changed; otherwise a fresh node is created with `new_state`, diffed
immediately, and queued for insertion at the current index. -/
def diffLoop : NamedMap → List Tree → List (String × Nat) → List Nat → Nat → Nat → Bool →
    List Widget → List (Tree × Nat) → NamedMap × List Tree × List (Tree × Nat)
  | m, cs, _, _, _, _, _, [], nts => (m, cs, nts)
  | m, cs, idMap, idList, csi, i, lenChanged, w :: ws, nts =>
    match idMapRemoveName idMap (customName w.id) with
    | Option.some r0 =>
      let d := Tree.diff m (cs.getD r0.1 default) w
      diffLoop d.1 (cs.set r0.1 d.2) r0.2 idList csi (i + 1) lenChanged ws nts
    | Option.none =>
      if csi < idList.length && !isNamed (cs.getD (idList.getD csi 0) default) then
        let idx := idList.getD csi 0
        let c0 := cs.getD idx default
        let c1 := if lenChanged then Tree.mk c0.tag w.id c0.state c0.children else c0
        let d := Tree.diff m c1 w
        diffLoop d.1 (cs.set idx d.2) idMap idList (csi + 1) (i + 1) lenChanged ws nts
      else
        let d := Tree.diff m (Tree.new w) w
        diffLoop d.1 cs idMap idList csi (i + 1) lenChanged ws (nts ++ [(d.2, i)])
end

/-- One reconciliation pass as the shells drive it: `take_all_named` on the
old tree populates the registry, then `diff` runs against the new widget
tree. -/
def reconcile (t : Tree) (w : Widget) : Tree :=
  let r := t.take_all_named
  (Tree.diff r.2 r.1 w).2

/-! ## Generic `diff_children_custom`

The generic entry point of `tree.rs` takes the new children of an arbitrary
type `T` together with their ids and two closures.  The closures mutate their
arguments in Rust (`Fn(&mut Tree, &mut T)`); only the `Tree` mutation is ever
observed by the algorithm, so they are embedded as `Tree → T → Tree` and
`T → Tree`.  The one panic site of the function, `Vec::insert` with an
out-of-range index, is modelled by the `Option` result (`none` = panic);
there is no other panicking operation on this path — in particular
`id_map.insert` on a duplicate sibling name simply replaces the previous
binding. -/

/-- The per-new-child loop of the generic `diff_children_custom`, over
`new_children.zip(new_ids)` (the source zips the two iterators, truncating
to the shorter). -/
def dccLoop {T : Type} (diff : Tree → T → Tree) (new_state : T → Tree) :
    List Tree → List (String × Nat) → List Nat → Nat → Nat → Bool →
    List (T × Option Id) → List (Tree × Nat) → List Tree × List (Tree × Nat)
  | cs, _, _, _, _, _, [], nts => (cs, nts)
  | cs, idMap, idList, csi, i, lenChanged, x :: ws, nts =>
    match idMapRemoveName idMap (customName x.2) with
    | Option.some r0 =>
      dccLoop diff new_state (cs.set r0.1 (diff (cs.getD r0.1 default) x.1)) r0.2 idList
        csi (i + 1) lenChanged ws nts
    | Option.none =>
      if csi < idList.length && !isNamed (cs.getD (idList.getD csi 0) default) then
        let idx := idList.getD csi 0
        let c0 := cs.getD idx default
        let c1 := if lenChanged then Tree.mk c0.tag x.2 c0.state c0.children else c0
        dccLoop diff new_state (cs.set idx (diff c1 x.1)) idMap idList
          (csi + 1) (i + 1) lenChanged ws nts
      else
        dccLoop diff new_state cs idMap idList csi (i + 1) lenChanged ws
          (nts ++ [(diff (new_state x.1) x.1, i)])

/-- The final insertion loop with the `Vec::insert` bound check made
explicit: `none` models the panic on an out-of-range index. -/
def insertAllChecked : List Tree → List (Tree × Nat) → Option (List Tree)
  | cs, [] => Option.some cs
  | cs, r :: rest =>
    if r.2 ≤ cs.length then insertAllChecked (listInsertIdx cs r.2 r.1) rest
    else Option.none

/-- `Tree::diff_children_custom`: truncate excess old children, partition the
remainder into the name map and the positional list, run the per-child loop,
then splice the freshly created nodes in at their recorded indices. -/
def Tree.diff_children_custom {T : Type} (tree : Tree) (new_children : List T)
    (new_ids : List (Option Id)) (diff : Tree → T → Tree) (new_state : T → Tree) :
    Option (List Tree) :=
  let cs0 := if tree.children.length > new_children.length then
               tree.children.take new_children.length
             else tree.children
  let lenChanged : Bool := cs0.length != new_children.length
  let maps := buildMaps cs0
  let r := dccLoop diff new_state cs0 maps.1 maps.2 0 0 lenChanged
    (new_children.zip new_ids) []
  insertAllChecked r.1 r.2

/-! ## `diff_children_custom_with_search`

The free function: heuristic size-delta placement driven by the
`maybe_changed` closure.  The only panic site is the `splice` call of the
shrink branch, whose range can run past the end of the vector when
`maybe_changed` selects an interior index too close to the end; the `Option`
result models it (`none` = panic).  The grow branch's slice
`new_children[di .. di + (new_len - cur_len)]` is always in bounds since
`di < cur_len`. -/
def diff_children_custom_with_search {T : Type} (current_children : List Tree)
    (new_children : List T) (diff : Tree → T → Tree) (maybe_changed : Nat → Bool)
    (new_state : T → Tree) : Option (List Tree) :=
  if new_children.isEmpty then Option.some []
  else if current_children.isEmpty then Option.some (new_children.map new_state)
  else
    let fmc := maybe_changed 0
    let lmc := maybe_changed (current_children.length - 1)
    let step1 : Option (List Tree) :=
      if current_children.length > new_children.length then
        if !fmc && lmc then Option.some (current_children.take new_children.length)
        else
          let di := if fmc then 0
            else (((List.range' 1 (current_children.length - 1)).find? maybe_changed).getD 0)
          let cnt := current_children.length - new_children.length
          if di + cnt ≤ current_children.length then
            Option.some (current_children.take di ++ current_children.drop (di + cnt))
          else Option.none
      else Option.some current_children
    match step1 with
    | Option.none => Option.none
    | Option.some cur1 =>
      let cur2 :=
        if cur1.length < new_children.length then
          let fmc1 := maybe_changed 0
          let lmc1 := maybe_changed (cur1.length - 1)
          if !fmc1 && lmc1 then cur1 ++ (new_children.drop cur1.length).map new_state
          else
            let di := if fmc1 then 0
              else (((List.range' 1 (cur1.length - 1)).find? maybe_changed).getD 0)
            cur1.take di ++
              ((new_children.drop di).take (new_children.length - cur1.length)).map new_state ++
              cur1.drop di
        else cur1
      Option.some (List.zipWith diff cur2 new_children)

/-! ## `Tree::find` -/

mutual
/-- `Tree::find(id)`: the node itself first, then the children in order,
each searched recursively (depth-first pre-order). -/
def Tree.find : Tree → Id → Option Tree
  | .mk tag idv st cs, i =>
    if idv = Option.some i then Option.some (.mk tag idv st cs)
    else Tree.findList cs i

def Tree.findList : List Tree → Id → Option Tree
  | [], _ => Option.none
  | c :: cs, i =>
    match Tree.find c i with
    | Option.some r => Option.some r
    | Option.none => Tree.findList cs i
end

/-! ## Observers used to state the claims -/

mutual
/-- Depth-first pre-order enumeration of the nodes of a tree. -/
def Tree.preorder : Tree → List Tree
  | .mk tag idv st cs => .mk tag idv st cs :: Tree.preorderList cs

def Tree.preorderList : List Tree → List Tree
  | [] => []
  | c :: cs => Tree.preorder c ++ Tree.preorderList cs
end

mutual
/-- Depth-first pre-order enumeration of the nodes of a widget tree. -/
def Widget.preorder : Widget → List Widget
  | .mk tag idv st cs => .mk tag idv st cs :: Widget.preorderList cs

def Widget.preorderList : List Widget → List Widget
  | [] => []
  | c :: cs => Widget.preorder c ++ Widget.preorderList cs
end

/-- Does this tree node carry the custom name `n`? -/
def isNamedAs (n : String) (t : Tree) : Bool :=
  customName t.id == Option.some n

/-- Number of nodes of the tree carrying the custom name `n`. -/
def countNamed (n : String) (t : Tree) : Nat :=
  ((Tree.preorder t).filter (isNamedAs n)).length

def countNamedList (n : String) (cs : List Tree) : Nat :=
  ((Tree.preorderList cs).filter (isNamedAs n)).length

/-- Does this widget carry the custom name `n`? -/
def wNamedAs (n : String) (w : Widget) : Bool :=
  customName w.id == Option.some n

/-- Number of widgets of the widget tree carrying the custom name `n`. -/
def countNamedW (n : String) (w : Widget) : Nat :=
  ((Widget.preorder w).filter (wNamedAs n)).length

def countNamedWList (n : String) (ws : List Widget) : Nat :=
  ((Widget.preorderList ws).filter (wNamedAs n)).length

/-- The multiset of state payloads present in a tree. -/
def treeStates (t : Tree) : List State :=
  (Tree.preorder t).map Tree.state

/-- `s` is held by some node of `t` (state-instance containment). -/
def containsState (s : State) (t : Tree) : Prop :=
  s ∈ treeStates t

instance (s : State) (t : Tree) : Decidable (containsState s t) :=
  inferInstanceAs (Decidable (s ∈ treeStates t))

/-! ## SCTK event loop: fatal transport errors and exit codes

From `sctk/src/event_loop/mod.rs`.  `run_return`'s main loop breaks with an
exit code on: a `flush` error, a `dispatch_pending` error, a sticky
`ControlFlow::ExitWithCode`, or an `event_loop.dispatch` error in any of the
`Poll`/`Wait`/`WaitUntil` arms (`raw_os_err`).  `io::Error::raw_os_error()`
is modelled as the `Option Int` carried by the error value. -/

/-- `wayland_client::WaylandError`: an I/O error (with its optional raw OS
error code) or a protocol error. -/
inductive WaylandError where
  | io (rawOsError : Option Int)
  | protocol
deriving DecidableEq, Repr

/-- `wayland_client::DispatchError`. -/
inductive DispatchError where
  | badMessage
  | backend (e : WaylandError)
deriving DecidableEq, Repr

/-- `calloop::Error`: an I/O error (with its optional raw OS error code) or
any other variant. -/
inductive CalloopError where
  | ioError (rawOsError : Option Int)
  | other
deriving DecidableEq, Repr

/-- `ControlFlow` as matched by the loop. -/
inductive ControlFlow where
  | exitWithCode (code : Int)
  | poll
  | wait
  | waitUntil
deriving DecidableEq, Repr

/-- Outcome of one iteration of the `run_return` loop: break with an exit
code, or keep looping. -/
inductive LoopStep where
  | exit (code : Int)
  | continueLoop
deriving DecidableEq, Repr

/-- The underlying OS error code of a transport error, when one is
available (an I/O error that carries a raw OS error; protocol errors carry
none). -/
def WaylandError.osCode : WaylandError → Option Int
  | .io c => c
  | .protocol => Option.none

def DispatchError.osCode : DispatchError → Option Int
  | .badMessage => Option.none
  | .backend e => e.osCode

def CalloopError.osCode : CalloopError → Option Int
  | .ioError c => c
  | .other => Option.none

/-- The `break` code for a `connection().flush()` error:
`match { Io(err) => err.raw_os_error(), Protocol(_) => None }.unwrap_or(1)`. -/
def flushBreakCode (e : WaylandError) : Int :=
  (match e with
   | .io c => c
   | .protocol => Option.none).getD 1

/-- The `break` code for a `dispatch_pending` error:
`match { BadMessage => None, Backend(Io(err)) => err.raw_os_error(),
Backend(Protocol(_)) => None }.unwrap_or(1)`. -/
def dispatchBreakCode (e : DispatchError) : Int :=
  (match e with
   | .badMessage => Option.none
   | .backend (.io c) => c
   | .backend .protocol => Option.none).getD 1

/-- `fn raw_os_err(err: calloop::Error) -> i32`. -/
def raw_os_err (e : CalloopError) : Int :=
  (match e with
   | .ioError c => c
   | .other => Option.none).getD 1

/-- One iteration of `run_return`'s loop, reduced to its break/continue
decision: flush result, `dispatch_pending` result, the current control flow,
and the `event_loop.dispatch` result of the non-exit arms (`some e` models
`Err(e)`). -/
def runStep (flushResult : Option WaylandError) (pendingResult : Option DispatchError)
    (cf : ControlFlow) (dispatchResult : Option CalloopError) : LoopStep :=
  match flushResult with
  | Option.some e => .exit (flushBreakCode e)
  | Option.none =>
    match pendingResult with
    | Option.some e => .exit (dispatchBreakCode e)
    | Option.none =>
      match cf with
      | .exitWithCode c => .exit c
      | _ =>
        match dispatchResult with
        | Option.some e => .exit (raw_os_err e)
        | Option.none => .continueLoop

/-! ## Concrete instances used by the scenario theorems and counterexamples -/

/-- A named node `"a"` with two unnamed children (positions 0 and 1) and a
deeper named node `"b"` inside the first child. -/
def tScenarioTake : Tree := .mk 5 (Option.some ⟨.custom 0 "a"⟩) (.some 7)
  [ .mk 10 (Option.some ⟨.unique 1⟩) (.some 1)
      [ .mk 30 (Option.some ⟨.custom 0 "b"⟩) (.some 3) [] ],
    .mk 20 (Option.some ⟨.unique 2⟩) (.some 2) [] ]

/-- Old children `[Named "x" (state 1), Unnamed B (state 2)]`. -/
def tScenarioReorder : Tree := .mk 0 Option.none (.some 0)
  [ .mk 1 (Option.some ⟨.custom 0 "x"⟩) (.some 1) [],
    .mk 2 Option.none (.some 2) [] ]

/-- New widget list reordered to `[Unnamed B, Named "x"]`. -/
def wScenarioReorder : Widget := .mk 0 Option.none (.some 100)
  [ .mk 2 Option.none (.some 200) [],
    .mk 1 (Option.some ⟨.custom 0 "x"⟩) (.some 300) [] ]

/-- A tree whose only named node `"n"` (state token 7) sits under the first
of two unnamed containers. -/
def tRoundTrip : Tree := .mk 0 Option.none (.some 0)
  [ .mk 1 Option.none (.some 10)
      [ .mk 3 (Option.some ⟨.custom 0 "n"⟩) (.some 7) [] ],
    .mk 2 Option.none (.some 20) [] ]

/-- First pass: the widget named `"n"` moves from the first container to the
second. -/
def wRoundTrip1 : Widget := .mk 0 Option.none (.some 90)
  [ .mk 1 Option.none (.some 91) [ .mk 4 Option.none (.some 40) [] ],
    .mk 2 Option.none (.some 92)
      [ .mk 3 (Option.some ⟨.custom 0 "n"⟩) (.some 70) [] ] ]

/-- Second pass: the widget named `"n"` moves back to the first container. -/
def wRoundTrip2 : Widget := .mk 0 Option.none (.some 93)
  [ .mk 1 Option.none (.some 94)
      [ .mk 3 (Option.some ⟨.custom 0 "n"⟩) (.some 71) [] ],
    .mk 2 Option.none (.some 95) [ .mk 4 Option.none (.some 41) [] ] ]

/-- A tree with one named child `"x"`, used against a same-tag widget with
one unnamed child (the named child is orphaned by the new children). -/
def tOrphanNamed : Tree := .mk 0 Option.none (.some 5)
  [ .mk 1 (Option.some ⟨.custom 0 "x"⟩) (.some 6) [] ]

/-- Same tag as `tOrphanNamed`, no id, a single unnamed child. -/
def wOrphanNamed : Widget := .mk 0 Option.none (.some 50)
  [ .mk 1 Option.none (.some 60) [] ]

/-- Two sibling trees both named `"x"`, with state tokens `s1` and `s2`. -/
def dupNamedChildren (s1 s2 : Nat) : Tree := .mk 0 Option.none .none
  [ .mk 1 (Option.some ⟨.custom 1 "x"⟩) (.some s1) [],
    .mk 1 (Option.some ⟨.custom 2 "x"⟩) (.some s2) [] ]

/-- New ids for the duplicate-name scenario: a child named `"x"` followed by
an unnamed child. -/
def dupNamedIds : List (Option Id) := [Option.some ⟨.custom 9 "x"⟩, Option.none]

/-- A diff closure that records which new child an old tree was reconciled
against by writing the new child's value into the tag. -/
def tagMarkDiff : Tree → Nat → Tree :=
  fun t x => Tree.mk x t.id t.state t.children

/-- A `new_state` closure building a fresh node with the child's value as
state token. -/
def natNewState : Nat → Tree :=
  fun x => Tree.mk 7 Option.none (.some x) []

/-- A diff closure that overwrites the tag with a sentinel, making any
application of the closure observable. -/
def sentinelDiff : Tree → Nat → Tree :=
  fun t _ => Tree.mk 99 t.id t.state t.children

instance : Inhabited Widget := ⟨.mk 0 Option.none .none []⟩

/-- The state component of the registry entry for a name, if present. -/
def NamedMap.lookupState (m : NamedMap) (n : String) : Option State :=
  (m.lookup n).map Prod.fst

/-- The state of the first pre-order node carrying the custom name `n`. -/
def namedStateOf (n : String) (t : Tree) : Option State :=
  ((Tree.preorder t).find? (isNamedAs n)).map Tree.state

/-- The state of the first pre-order node (over a forest) carrying the
custom name `n`. -/
def namedStateListOf (n : String) (cs : List Tree) : Option State :=
  ((Tree.preorderList cs).find? (isNamedAs n)).map Tree.state

/-! # Theorems -/

mutual
/-- `find` returns the first hit of a `find?` over the pre-order listing. -/
theorem Tree.find_eq_preorder_find (t : Tree) (i : Id) :
    Tree.find t i = (Tree.preorder t).find? (fun nd => nd.id == Option.some i) := by
  cases t with
  | mk tag idv st cs =>
    by_cases h : idv = Option.some i
    · simp [Tree.find, Tree.preorder, Tree.id, h]
    · simp [Tree.find, Tree.preorder, Tree.id, h,
        Tree.findList_eq_preorder_find cs i]

theorem Tree.findList_eq_preorder_find (cs : List Tree) (i : Id) :
    Tree.findList cs i =
      (Tree.preorderList cs).find? (fun nd => nd.id == Option.some i) := by
  cases cs with
  | nil => rfl
  | cons c cs =>
    rw [Tree.findList, Tree.preorderList, List.find?_append,
      ← Tree.find_eq_preorder_find c i, ← Tree.findList_eq_preorder_find cs i]
    cases Tree.find c i <;> rfl
end

/-- C9: `Tree::find(id)` returns the first node whose id equals the given id
in depth-first pre-order (node before children, children in list order), and
returns `None` iff no node of the tree carries that id. -/
theorem C9_find_first_preorder (t : Tree) (i : Id) :
    Tree.find t i = (Tree.preorder t).find? (fun nd => nd.id == Option.some i) ∧
    (Tree.find t i = Option.none ↔ ∀ nd ∈ Tree.preorder t, nd.id ≠ Option.some i) := by
  refine ⟨Tree.find_eq_preorder_find t i, ?_⟩
  rw [Tree.find_eq_preorder_find t i, List.find?_eq_none]
  simp

/-- C8: a fatal transport error while flushing or dispatching terminates the
`run_return` loop with an exit code equal to the underlying OS error code
when one is available, and `1` otherwise (flush errors, `dispatch_pending`
errors, and `event_loop.dispatch` errors of the non-exit control-flow arms). -/
theorem C8_fatal_transport_exit_code (we : WaylandError) (de : DispatchError)
    (ce : CalloopError) (p : Option DispatchError) (cf : ControlFlow)
    (d : Option CalloopError) :
    runStep (Option.some we) p cf d = .exit (we.osCode.getD 1) ∧
    runStep Option.none (Option.some de) cf d = .exit (de.osCode.getD 1) ∧
    ((∀ c, cf ≠ ControlFlow.exitWithCode c) →
      runStep Option.none Option.none cf (Option.some ce) = .exit (ce.osCode.getD 1)) := by
  refine ⟨?_, ?_, ?_⟩
  · cases we <;> rfl
  · cases de with
    | badMessage => rfl
    | backend e => cases e <;> rfl
  · intro h
    cases cf with
    | exitWithCode c => exact absurd rfl (h c)
    | poll => cases ce <;> rfl
    | wait => cases ce <;> rfl
    | waitUntil => cases ce <;> rfl

theorem C8_witness :
    (∀ c, ControlFlow.poll ≠ ControlFlow.exitWithCode c) ∧
    runStep (Option.some (.io (Option.some 5))) Option.none .poll Option.none =
      .exit 5 ∧
    runStep Option.none Option.none .poll (Option.some .other) = .exit 1 := by
  refine ⟨fun c h => ControlFlow.noConfusion h, ?_, ?_⟩
  · exact (C8_fatal_transport_exit_code (.io (Option.some 5)) .badMessage .other
      Option.none .poll Option.none).1
  · exact (C8_fatal_transport_exit_code (.io (Option.some 5)) .badMessage .other
      Option.none .poll Option.none).2.2 (fun c h => ControlFlow.noConfusion h)

/-- C6 (amended): with `current_children` empty,
`diff_children_custom_with_search` yields exactly `new_children.len()`
freshly created nodes, one per new child, each produced by `new_state` alone
— the `diff` closure is never applied in this branch. -/
theorem C6_empty_current_creates_fresh {T : Type} (ws : List T) (diff : Tree → T → Tree)
    (mc : Nat → Bool) (ns : T → Tree) :
    diff_children_custom_with_search [] ws diff mc ns = Option.some (ws.map ns) := by
  cases ws <;> simp [diff_children_custom_with_search]

/-- C6 counterexample: the created nodes are *not* passed through the `diff`
closure — with a closure that stamps a sentinel tag, the result differs from
what one application of `diff` per fresh node would produce. -/
theorem C6_counterexample :
    diff_children_custom_with_search [] [0] sentinelDiff (fun _ => false) natNewState ≠
      Option.some ([0].map (fun c => sentinelDiff (natNewState c) c)) := by
  intro h
  simp [diff_children_custom_with_search, sentinelDiff, natNewState] at h

/-- C10: when both child lists are non-empty, the lengths differ and
`maybe_changed` is `false` everywhere it is queried, the size delta is
spliced at index 0 — excess old children are removed at the front when
shrinking, fresh nodes built from the leading new children are inserted at
the front when growing — and the surviving children are then element-wise
diffed against `new_children` in order. -/
theorem C10_unchanged_delta_spliced_at_front {T : Type} (cur : List Tree) (ws : List T)
    (diff : Tree → T → Tree) (mc : Nat → Bool) (ns : T → Tree)
    (h1 : cur ≠ []) (h2 : ws ≠ []) (hmc : ∀ i, mc i = false) :
    (ws.length < cur.length →
      diff_children_custom_with_search cur ws diff mc ns =
        Option.some (List.zipWith diff (cur.drop (cur.length - ws.length)) ws)) ∧
    (cur.length < ws.length →
      diff_children_custom_with_search cur ws diff mc ns =
        Option.some (List.zipWith diff ((ws.take (ws.length - cur.length)).map ns ++ cur) ws)) := by
  have hfind : ∀ (a len : Nat), (List.range' a len).find? mc = Option.none := by
    intro a len
    exact List.find?_eq_none.mpr (fun x _ hpx => by simp [hmc x] at hpx)
  have hw : ¬ (ws.isEmpty = true) := by simp [h2]
  have hc : ¬ (cur.isEmpty = true) := by simp [h1]
  constructor
  · intro hlen
    have harith : cur.length - (cur.length - ws.length) = ws.length := by omega
    simp only [diff_children_custom_with_search, if_neg hw, if_neg hc, hmc, hfind,
      Option.getD_none, if_pos hlen]
    simp [Nat.sub_le, harith]
  · intro hlen
    simp only [diff_children_custom_with_search, if_neg hw, if_neg hc, hmc,
      Bool.not_false, Bool.true_and, Bool.and_false, hfind, Option.getD_none,
      if_neg (by omega : ¬ cur.length > ws.length)]
    simp only [if_pos hlen, List.take_zero, List.drop_zero, List.nil_append]
    simp

theorem C10_witness :
    ([5] : List Nat).length < [Tree.empty, Tree.empty].length ∧
    diff_children_custom_with_search [Tree.empty, Tree.empty] [5] tagMarkDiff
        (fun _ => false) natNewState =
      Option.some (List.zipWith tagMarkDiff
        ([Tree.empty, Tree.empty].drop ([Tree.empty, Tree.empty].length - ([5] : List Nat).length))
        [5]) :=
  ⟨by decide,
    (C10_unchanged_delta_spliced_at_front [Tree.empty, Tree.empty] [5] tagMarkDiff
      (fun _ => false) natNewState (by simp) (by simp) (fun _ => rfl)).1 (by decide)⟩

/-! Helper lemmas for the reconciliation theorems. -/

theorem isNamed_false_iff (c : Tree) : isNamed c = false ↔ customName c.id = Option.none := by
  cases hx : customName c.id <;> simp [isNamed, hx]

theorem Tree.new_id (w : Widget) : (Tree.new w).id = w.id := by
  cases w; rfl

theorem Tree.newList_eq_map (ws : List Widget) : Tree.newList ws = ws.map Tree.new := by
  induction ws with
  | nil => rfl
  | cons w ws ih => simp [Tree.newList, ih]

theorem newList_length (ws : List Widget) : (Tree.newList ws).length = ws.length := by
  simp [Tree.newList_eq_map]

theorem buildMapsGo_no_custom (cs : List Tree) (i : Nat) (im : List (String × Nat))
    (il : List Nat) (h : ∀ c ∈ cs, isNamed c = false) :
    buildMapsGo cs i im il = (im, il ++ List.range' i cs.length) := by
  induction cs generalizing i il with
  | nil => simp [buildMapsGo]
  | cons c cs ih =>
    have hc : customName c.id = Option.none :=
      (isNamed_false_iff c).mp (h c (List.mem_cons_self _ _))
    rw [buildMapsGo, hc]
    rw [ih (i + 1) (il ++ [i]) (fun x hx => h x (List.mem_cons_of_mem _ hx))]
    simp [List.range'_succ]

theorem buildMaps_no_custom (cs : List Tree) (h : ∀ c ∈ cs, isNamed c = false) :
    buildMaps cs = ([], List.range cs.length) := by
  rw [buildMaps, buildMapsGo_no_custom cs 0 [] [] h]
  simp [List.range_eq_range']

theorem listInsertIdx_at_length {α : Type} (cs : List α) (a : α) :
    listInsertIdx cs cs.length a = cs ++ [a] := by
  induction cs with
  | nil => rfl
  | cons c cs ih => simpa [listInsertIdx] using ih

theorem insertAll_consecutive (cs : List Tree) (nts : List (Tree × Nat))
    (h : nts.map Prod.snd = List.range' cs.length nts.length) :
    insertAll cs nts = cs ++ nts.map Prod.fst := by
  induction nts generalizing cs with
  | nil => simp [insertAll]
  | cons p rest ih =>
    simp only [List.length_cons, List.range'_succ, List.map_cons, List.cons.injEq] at h
    obtain ⟨h1, h2⟩ := h
    rw [insertAll, h1, listInsertIdx_at_length]
    rw [ih (cs ++ [p.1]) (by simpa using h2)]
    simp

theorem diff_tag_of_not_named (m : NamedMap) (t : Tree) (w : Widget)
    (h : customName w.id = Option.none) :
    (Tree.diff m t w).2.tag = w.tag := by
  cases w with
  | mk wtag wid wst wcs =>
    simp only [Widget.id] at h
    by_cases hb : t.tag = wtag
    · simp only [Tree.diff, h]
      rw [if_pos (show (t.tag == wtag) = true by simpa using hb)]
      split <;> exact hb
    · simp only [Tree.diff, h]
      rw [if_neg (show ¬ (t.tag == wtag) = true by simpa using hb)]
      simp [Tree.new, Tree.tag, Widget.tag]

theorem diff_frame_of_tag_match (m : NamedMap) (t : Tree) (w : Widget)
    (h1 : customName w.id = Option.none) (h2 : t.tag = w.tag) :
    (Tree.diff m t w).2.state = t.state ∧ (Tree.diff m t w).2.tag = t.tag ∧
    (Tree.diff m t w).2.id = t.id := by
  cases w with
  | mk wtag wid wst wcs =>
    simp only [Widget.id] at h1
    have hb : (t.tag == wtag) = true := by
      simpa using (by simpa [Widget.tag] using h2 : t.tag = wtag)
    simp only [Tree.diff, h1]
    rw [if_pos hb]
    split <;> exact ⟨rfl, rfl, rfl⟩

/-- `getD` after `set` at a different index. -/
theorem getD_set_ne (cs : List Tree) (n p : Nat) (a : Tree) (h : n ≠ p) :
    (cs.set n a).getD p default = cs.getD p default := by
  rw [List.getD_eq_getElem?_getD, List.getD_eq_getElem?_getD, List.getElem?_set_ne h]

/-- `getD` after `set` at the same (in-bounds) index. -/
theorem getD_set_self (cs : List Tree) (n : Nat) (a : Tree) (h : n < cs.length) :
    (cs.set n a).getD n default = a := by
  rw [List.getD_eq_getElem?_getD, List.getElem?_set_eq_of_lt a h]; rfl

/-- The per-child loop on a fully positional configuration: when neither the
remaining old children (positions ≥ `csi`) nor the new widgets carry custom
ids, the loop (entered with the empty name map and the full positional index
list) pairs old and new children in order, creates the surplus new children
with consecutive insertion indices starting right after the old children, and
gives every produced node the tag of its widget. -/
theorem diffLoop_no_custom (ws : List Widget) (m : NamedMap) (cs : List Tree)
    (csi i : Nat) (lc : Bool) (nts : List (Tree × Nat))
    (hws : ∀ x ∈ ws, customName x.id = Option.none)
    (hcs : ∀ p, csi ≤ p → p < cs.length → isNamed (cs.getD p default) = false)
    (hphase : (i = csi ∧ csi ≤ cs.length) ∨ (csi = cs.length ∧ cs.length ≤ i)) :
    (diffLoop m cs [] (List.range cs.length) csi i lc ws nts).2.1.length = cs.length ∧
    (∀ p, p < csi →
      (diffLoop m cs [] (List.range cs.length) csi i lc ws nts).2.1.getD p default =
        cs.getD p default) ∧
    (∀ p, csi ≤ p → p < cs.length → p - csi < ws.length →
      ((diffLoop m cs [] (List.range cs.length) csi i lc ws nts).2.1.getD p default).tag =
        (ws.getD (p - csi) default).tag) ∧
    (∃ extra : List (Tree × Nat),
      (diffLoop m cs [] (List.range cs.length) csi i lc ws nts).2.2 = nts ++ extra ∧
      extra.length = ws.length - (cs.length - csi) ∧
      List.map Prod.snd extra = List.range' (i + (cs.length - csi)) extra.length ∧
      (∀ j, j < extra.length →
        (extra.getD j (default, 0)).1.tag = (ws.getD (cs.length - csi + j) default).tag)) := by
  induction ws generalizing m cs csi i nts with
  | nil =>
    refine ⟨rfl, fun p _ => rfl, fun p _ _ hp => absurd hp (by simp),
      [], by simp [diffLoop], by simp, rfl, fun j hj => absurd hj (by simp)⟩
  | cons w ws ih =>
    have hw0 : customName w.id = Option.none := hws w (List.mem_cons_self _ _)
    have hws' : ∀ x ∈ ws, customName x.id = Option.none :=
      fun x hx => hws x (List.mem_cons_of_mem _ hx)
    by_cases hcsi : csi < cs.length
    · -- positional consumption
      have hieq : i = csi := by
        rcases hphase with ⟨h1, _⟩ | ⟨h1, _⟩
        · exact h1
        · omega
      have hrg : (List.range cs.length).getD csi 0 = csi := by
        rw [List.getD_eq_getElem?_getD]
        simp [List.getElem?_range, hcsi]
      have hnz : isNamed (cs.getD csi default) = false := hcs csi (Nat.le_refl _) hcsi
      have hguard : (decide (csi < (List.range cs.length).length) &&
          !isNamed (cs.getD ((List.range cs.length).getD csi 0) default)) = true := by
        rw [List.length_range, hrg, hnz]
        simp [hcsi]
      simp only [diffLoop, hw0, idMapRemoveName]
      rw [if_pos hguard]
      simp only [hrg]
      have ihres := ih (Tree.diff m
          (if lc then Tree.mk (cs.getD csi default).tag w.id (cs.getD csi default).state
            (cs.getD csi default).children else cs.getD csi default) w).1
        (cs.set csi (Tree.diff m
          (if lc then Tree.mk (cs.getD csi default).tag w.id (cs.getD csi default).state
            (cs.getD csi default).children else cs.getD csi default) w).2)
        (csi + 1) (i + 1) nts hws'
        (by
          intro p hp1 hp2
          rw [getD_set_ne _ _ _ _ (by omega)]
          exact hcs p (by omega) (by simpa using hp2))
        (Or.inl ⟨by omega, by simpa [List.length_set] using hcsi⟩)
      simp only [List.length_set] at ihres
      obtain ⟨hlen, hpres, htags, extra, he1, he2, he3, he4⟩ := ihres
      refine ⟨hlen, ?_, ?_, extra, he1, ?_, ?_, ?_⟩
      · intro p hp
        rw [hpres p (by omega), getD_set_ne _ _ _ _ (by omega)]
      · intro p hp1 hp2 hp3
        by_cases hpc : p = csi
        · subst hpc
          rw [hpres p (by omega), getD_set_self _ _ _ hcsi,
            diff_tag_of_not_named _ _ _ hw0, Nat.sub_self, List.getD_cons_zero]
        · have h5 := htags p (by omega) hp2 (by simp at hp3; omega)
          rw [h5]
          have hix : p - csi = (p - (csi + 1)) + 1 := by omega
          rw [hix, List.getD_cons_succ]
      · simp only [List.length_cons]
        omega
      · have hst : (i + 1) + (cs.length - (csi + 1)) = i + (cs.length - csi) := by omega
        rw [← hst]
        exact he3
      · intro j hj
        have h6 := he4 j hj
        rw [h6]
        have hix : cs.length - csi + j = (cs.length - (csi + 1) + j) + 1 := by omega
        rw [hix, List.getD_cons_succ]
    · -- creation
      have hcseq : csi = cs.length := by
        rcases hphase with ⟨_, h2⟩ | ⟨h1, _⟩
        · omega
        · exact h1
      have hile : cs.length ≤ i := by
        rcases hphase with ⟨h1, _⟩ | ⟨_, h2⟩
        · omega
        · exact h2
      simp only [diffLoop, hw0, idMapRemoveName]
      rw [if_neg (by simp [List.length_range, hcsi])]
      have ihres := ih (Tree.diff m (Tree.new w) w).1 cs csi (i + 1)
        (nts ++ [((Tree.diff m (Tree.new w) w).2, i)]) hws' hcs
        (Or.inr ⟨hcseq, by omega⟩)
      obtain ⟨hlen, hpres, htags, extra, he1, he2, he3, he4⟩ := ihres
      refine ⟨hlen, hpres, ?_, ((Tree.diff m (Tree.new w) w).2, i) :: extra, ?_, ?_, ?_, ?_⟩
      · intro p hp1 hp2
        omega
      · rw [he1, List.append_assoc, List.singleton_append]
      · simp only [List.length_cons]
        omega
      · simp only [List.map_cons, List.length_cons]
        have hz : cs.length - csi = 0 := by omega
        rw [hz] at he3 ⊢
        rw [List.range'_succ]
        simp only [Nat.add_zero] at he3 ⊢
        rw [he3]
      · intro j hj
        have hz : cs.length - csi = 0 := by omega
        rw [hz]
        cases j with
        | zero =>
          simp only [List.getD_cons_zero, Nat.zero_add]
          rw [diff_tag_of_not_named _ _ _ hw0]
        | succ j =>
          simp only [List.getD_cons_succ]
          have h7 := he4 j (by simpa using hj)
          rw [hz] at h7
          simpa using h7

theorem getD_map_fst (extra : List (Tree × Nat)) (j : Nat) (h : j < extra.length) :
    (extra.map Prod.fst).getD j default = (extra.getD j (default, 0)).1 := by
  rw [List.getD_eq_getElem?_getD, List.getD_eq_getElem?_getD, List.getElem?_map,
    List.getElem?_eq_getElem h]
  rfl

/-- The widget `diff` hook (children reconciliation) on a fully positional
configuration: with no custom ids on either side and no excess old children,
the result has exactly one child per new widget, in order, each carrying its
widget's tag. -/
theorem diff_children_hook_no_custom (m : NamedMap) (cs0 : List Tree) (wcs : List Widget)
    (lc : Bool)
    (hc : ∀ c ∈ cs0, isNamed c = false) (hle : cs0.length ≤ wcs.length)
    (hw : ∀ x ∈ wcs, customName x.id = Option.none) :
    (insertAll (diffLoop m cs0 (buildMaps cs0).1 (buildMaps cs0).2 0 0 lc wcs []).2.1
        (diffLoop m cs0 (buildMaps cs0).1 (buildMaps cs0).2 0 0 lc wcs []).2.2).length =
      wcs.length ∧
    (∀ p, p < wcs.length →
      ((insertAll (diffLoop m cs0 (buildMaps cs0).1 (buildMaps cs0).2 0 0 lc wcs []).2.1
          (diffLoop m cs0 (buildMaps cs0).1 (buildMaps cs0).2 0 0 lc wcs []).2.2).getD p
            default).tag = (wcs.getD p default).tag) := by
  rw [buildMaps_no_custom cs0 hc]
  have hmain := diffLoop_no_custom wcs m cs0 0 0 lc [] hw
    (by
      intro p _ hp
      have hm : cs0.getD p default ∈ cs0 := by
        rw [List.getD_eq_getElem?_getD, List.getElem?_eq_getElem hp]
        exact List.getElem_mem hp
      exact hc _ hm)
    (Or.inl ⟨rfl, Nat.zero_le _⟩)
  simp only [Nat.sub_zero, Nat.zero_add, List.nil_append] at hmain
  obtain ⟨hlen, _, htags, extra, he1, he2, he3, he4⟩ := hmain
  rw [he1]
  rw [← hlen] at he3
  rw [insertAll_consecutive _ _ he3]
  have hextot : (diffLoop m cs0 [] (List.range cs0.length) 0 0 lc wcs []).2.1.length +
      extra.length = wcs.length := by
    rw [hlen]
    omega
  constructor
  · simpa using hextot
  · intro p hp
    by_cases hpl : p < cs0.length
    · rw [List.getD_eq_getElem?_getD, List.getElem?_append_left (by rw [hlen]; exact hpl),
        ← List.getD_eq_getElem?_getD]
      have := htags p (Nat.zero_le _) hpl (by omega)
      simpa using this
    · have hj : p - cs0.length < extra.length := by omega
      rw [List.getD_eq_getElem?_getD,
        List.getElem?_append_right (by rw [hlen]; omega), hlen,
        ← List.getD_eq_getElem?_getD, getD_map_fst extra _ hj]
      have h8 := he4 (p - cs0.length) hj
      rw [h8]
      congr 2
      omega

/-- C1 (amended): with a tag match and no named id on the widget,
`diff(T, W)` leaves `T.state` (the same instance), `T.tag` and `T.id`
unchanged, modifying only `T.children`; and provided additionally that no
child of `T` and no child of `W` carries a custom (named) id, the resulting
children match `W.children()` in count and, position by position, in tag. -/
theorem C1_tag_match_frame_and_shape (m : NamedMap) (t : Tree) (w : Widget)
    (h1 : customName w.id = Option.none) (h2 : t.tag = w.tag) :
    ((Tree.diff m t w).2.state = t.state ∧ (Tree.diff m t w).2.tag = t.tag ∧
      (Tree.diff m t w).2.id = t.id) ∧
    ((∀ c ∈ t.children, isNamed c = false) →
      (∀ x ∈ w.children, customName x.id = Option.none) →
      (Tree.diff m t w).2.children.length = w.children.length ∧
      (∀ p, p < w.children.length →
        ((Tree.diff m t w).2.children.getD p default).tag =
          (w.children.getD p default).tag)) := by
  refine ⟨diff_frame_of_tag_match m t w h1 h2, ?_⟩
  intro hc hw
  cases w with
  | mk wtag wid wst wcs =>
    simp only [Widget.id] at h1
    simp only [Widget.children] at hw ⊢
    have hb : (t.tag == wtag) = true := by
      simpa using (show t.tag = wtag by simpa [Widget.tag] using h2)
    have hwn : ∀ c ∈ Tree.newList wcs, isNamed c = false := by
      intro c hcm
      rw [Tree.newList_eq_map] at hcm
      obtain ⟨x, hx, rfl⟩ := List.mem_map.mp hcm
      rw [isNamed_false_iff, Tree.new_id]
      exact hw x hx
    simp only [Tree.diff, h1]
    rw [if_pos hb]
    split
    · -- children were replaced wholesale (length mismatch)
      simp only [Tree.children]
      rw [if_neg (by rw [newList_length]; omega)]
      exact diff_children_hook_no_custom m (Tree.newList wcs) wcs _ hwn
        (by rw [newList_length]) hw
    · -- children kept in place
      simp only [Tree.children]
      refine diff_children_hook_no_custom m _ wcs _ ?_ ?_ hw
      · intro c hcm
        split at hcm
        · exact hc c (List.mem_of_mem_take hcm)
        · exact hc c hcm
      · split
        · rename_i hgt
          rw [List.length_take]
          omega
        · rename_i hgt
          omega

theorem C1_witness :
    (customName (Widget.mk 0 Option.none (.some 50)
        [Widget.mk 1 Option.none (.some 60) []]).id = Option.none) ∧
    ((Tree.mk 0 Option.none (.some 5) []).tag =
      (Widget.mk 0 Option.none (.some 50) [Widget.mk 1 Option.none (.some 60) []]).tag) ∧
    ((Tree.diff [] (Tree.mk 0 Option.none (.some 5) [])
        (Widget.mk 0 Option.none (.some 50) [Widget.mk 1 Option.none (.some 60) []])).2.state =
      (Tree.mk 0 Option.none (.some 5) []).state) ∧
    ((Tree.diff [] (Tree.mk 0 Option.none (.some 5) [])
        (Widget.mk 0 Option.none (.some 50) [Widget.mk 1 Option.none (.some 60) []])).2.children.length = 1) := by
  refine ⟨rfl, rfl, ?_, ?_⟩
  · exact (C1_tag_match_frame_and_shape [] (Tree.mk 0 Option.none (.some 5) [])
      (Widget.mk 0 Option.none (.some 50) [Widget.mk 1 Option.none (.some 60) []])
      rfl rfl).1.1
  · exact (C1_tag_match_frame_and_shape [] (Tree.mk 0 Option.none (.some 5) [])
      (Widget.mk 0 Option.none (.some 50) [Widget.mk 1 Option.none (.some 60) []])
      rfl rfl).2 (by intro c hc; simp only [Tree.children] at hc; simp at hc)
      (by
        intro x hx
        simp only [Widget.children] at hx
        rw [List.mem_singleton] at hx
        subst hx
        rfl) |>.1

/-- C2: with a tag mismatch and no named id, `diff` rebuilds the node via
`Tree::new(widget)`, so the resulting state is the freshly constructed
`widget.state()` — and is never a state instance held anywhere in the prior
tree (whenever the fresh state is new, i.e. not already present in `T`). -/
theorem C2_tag_mismatch_fresh_state (m : NamedMap) (t : Tree) (w : Widget)
    (h1 : customName w.id = Option.none) (h2 : t.tag ≠ w.tag) :
    (Tree.diff m t w).2.state = w.state ∧
    (¬ containsState w.state t → ¬ containsState ((Tree.diff m t w).2.state) t) := by
  have hmain : (Tree.diff m t w).2.state = w.state := by
    cases w with
    | mk wtag wid wst wcs =>
      simp only [Widget.id] at h1
      have hb : (t.tag == wtag) = false := by
        simp only [beq_eq_false_iff_ne, ne_eq]
        exact fun hh => h2 (by simpa [Widget.tag] using hh)
      simp [Tree.diff, h1, hb, Tree.new, Tree.state, Widget.state]
  refine ⟨hmain, fun hn hcontra => hn ?_⟩
  rwa [hmain] at hcontra

theorem C2_witness :
    customName (Widget.mk 1 Option.none (.some 50) []).id = Option.none ∧
    (Tree.mk 0 Option.none (.some 5) []).tag ≠ (Widget.mk 1 Option.none (.some 50) []).tag ∧
    (Tree.diff [] (Tree.mk 0 Option.none (.some 5) [])
        (Widget.mk 1 Option.none (.some 50) [])).2.state =
      (Widget.mk 1 Option.none (.some 50) []).state :=
  ⟨rfl, by decide,
    (C2_tag_mismatch_fresh_state [] (Tree.mk 0 Option.none (.some 5) [])
      (Widget.mk 1 Option.none (.some 50) []) rfl (by decide)).1⟩

/-- C4 (evaluation at the failing input): `take_all_named` on a named node
`"a"` with two unnamed children (at positions 0 and 1) and a deeper named
node `"b"` inside the first child returns entries for both names, but the
child records of `"a"` carry the *reversed* enumeration indices `[1, 0]`
instead of the children's positions `[0, 1]` (the source enumerates
`children.iter_mut().rev().enumerate()`); no state of `"b"`'s subtree
appears in `"a"`'s records (only a stateless shell). -/
theorem C4_take_all_named_reversed_indices :
    ((tScenarioTake.take_all_named.2.lookup "a").map (fun e => e.2.map Prod.fst) =
      Option.some [1, 0]) ∧
    ((tScenarioTake.take_all_named.2.lookup "b").map Prod.fst =
      Option.some (State.some 3)) ∧
    ((tScenarioTake.take_all_named.2.lookup "a").map
        (fun e => (e.2.map (fun p => treeStates p.2)).flatten.contains (State.some 3)) =
      Option.some false) :=
  ⟨rfl, rfl, rfl⟩

/-- C5: reordering `[Named "x", Unnamed B]` to `[Unnamed B, Named "x"]`
across a full pass (`take_all_named` then `diff`) preserves the state of
`Named "x"` (token 1), which ends at index 0 of the resulting children, and
preserves B's state (token 2) by positional matching at index 1. -/
theorem C5_reorder_preserves_named_and_positional :
    reconcile tScenarioReorder wScenarioReorder =
      Tree.mk 0 Option.none (.some 0)
        [ Tree.mk 1 (Option.some ⟨.custom 0 "x"⟩) (.some 1) [],
          Tree.mk 2 Option.none (.some 2) [] ] := rfl

/-- C7 counterexample: duplicate sibling names do *not* panic — evaluated on
two siblings both named `"x"`, `diff_children_custom` returns `some` (the
`Option` models the function's only panic site) and proceeds normally. -/
theorem C7_counterexample :
    Tree.diff_children_custom (dupNamedChildren 1 2) [10, 20] dupNamedIds tagMarkDiff
        natNewState =
      Option.some
        [ Tree.mk 1 (Option.some ⟨.custom 1 "x"⟩) (.some 1) [],
          Tree.mk 20 Option.none (.some 20) [],
          Tree.mk 10 (Option.some ⟨.custom 2 "x"⟩) (.some 2) [] ] := rfl

/-- C7 (amended): duplicate sibling names are not detected and do not panic:
the name map keeps only the last sibling inserted under the name, so a new
child named `"x"` is reconciled against the *last* old sibling named `"x"`
(the tag-marking closure records the match: the old second sibling receives
the first new child's value 10 and keeps its state `s2`), while the first
duplicate is left in place untouched and un-reconciled. -/
theorem C7_duplicate_names_last_insert_wins (s1 s2 : Nat) :
    Tree.diff_children_custom (dupNamedChildren s1 s2) [10, 20] dupNamedIds tagMarkDiff
        natNewState =
      Option.some
        [ Tree.mk 1 (Option.some ⟨.custom 1 "x"⟩) (.some s1) [],
          Tree.mk 20 Option.none (.some 20) [],
          Tree.mk 10 (Option.some ⟨.custom 2 "x"⟩) (.some s2) [] ] := rfl

/-- C1 counterexample: with a tag match and an unnamed widget, the children
after `diff` need *not* match the shape of `widget.children()` — an old
child carrying a custom name absent from the new children survives as an
extra sibling, so the node ends with 2 children against the widget's 1. -/
theorem C1_counterexample :
    (Tree.diff [] tOrphanNamed wOrphanNamed).2.children.length = 2 ∧
    (Tree.newList wOrphanNamed.children).length = 1 ∧
    tOrphanNamed.tag = wOrphanNamed.tag ∧ customName wOrphanNamed.id = Option.none := by
  refine ⟨rfl, rfl, rfl, rfl⟩

set_option maxHeartbeats 4000000 in
/-! Registry (association list) lemmas. -/

theorem NamedMap.lookup_erase_ne (m : NamedMap) (k n : String) (h : k ≠ n) :
    (m.erase k).lookup n = m.lookup n := by
  induction m with
  | nil => rfl
  | cons p m ih =>
    obtain ⟨pk, pe⟩ := p
    simp only [NamedMap.erase] at ih ⊢
    simp only [decide_not] at ih ⊢
    rw [List.filter_cons]
    by_cases hp : pk = k
    · subst hp
      rw [if_neg (by simp), ih, NamedMap.lookup, if_neg h]
    · rw [if_pos (by simp [hp])]
      simp only [NamedMap.lookup]
      by_cases hn : pk = n <;> simp [hn, ih]

theorem NamedMap.lookupState_insertEntry_self (m : NamedMap) (n : String) (e : NamedEntry) :
    (m.insertEntry n e).lookupState n = Option.some e.1 := by
  simp [NamedMap.insertEntry, NamedMap.lookupState, NamedMap.lookup]

theorem NamedMap.lookupState_insertEntry_ne (m : NamedMap) (k n : String) (e : NamedEntry)
    (h : k ≠ n) : (m.insertEntry k e).lookupState n = m.lookupState n := by
  simp only [NamedMap.insertEntry, NamedMap.lookupState, NamedMap.lookup, if_neg h]
  rw [NamedMap.lookup_erase_ne m k n h]

theorem NamedMap.lookupState_pushRecord (m : NamedMap) (k n : String) (r : Nat × Tree) :
    (m.pushRecord k r).lookupState n = m.lookupState n := by
  induction m with
  | nil => rfl
  | cons p m ih =>
    obtain ⟨pk, pe⟩ := p
    simp only [NamedMap.pushRecord, NamedMap.lookupState, List.map_cons] at ih ⊢
    by_cases hp : pk = k
    · rw [if_pos (by simpa using hp)]
      simp only [NamedMap.lookup]
      by_cases hn : pk = n <;> simp [hn, ih]
    · rw [if_neg (by simpa using hp)]
      simp only [NamedMap.lookup]
      by_cases hn : pk = n <;> simp [hn, ih]

theorem NamedMap.lookupState_erase_ne (m : NamedMap) (k n : String) (h : k ≠ n) :
    (m.erase k).lookupState n = m.lookupState n := by
  simp only [NamedMap.lookupState, NamedMap.lookup_erase_ne m k n h]

/-! Counting and first-state decomposition lemmas. -/

theorem countNamed_mk (n : String) (tag : Nat) (idv : Option Id) (st : State)
    (cs : List Tree) :
    countNamed n (Tree.mk tag idv st cs) =
      (if isNamedAs n (Tree.mk tag idv st cs) = true then 1 else 0) + countNamedList n cs := by
  simp only [countNamed, countNamedList, Tree.preorder, List.filter_cons]
  split <;> simp [Nat.add_comm]

theorem countNamedList_nil (n : String) : countNamedList n [] = 0 := rfl

theorem countNamedList_cons (n : String) (c : Tree) (cs : List Tree) :
    countNamedList n (c :: cs) = countNamed n c + countNamedList n cs := by
  simp [countNamedList, countNamed, Tree.preorderList, List.filter_append]

theorem countNamedW_mk (n : String) (tag : Nat) (idv : Option Id) (st : State)
    (cs : List Widget) :
    countNamedW n (Widget.mk tag idv st cs) =
      (if wNamedAs n (Widget.mk tag idv st cs) = true then 1 else 0) + countNamedWList n cs := by
  simp only [countNamedW, countNamedWList, Widget.preorder, List.filter_cons]
  split <;> simp [Nat.add_comm]

theorem countNamedWList_nil (n : String) : countNamedWList n [] = 0 := rfl

theorem countNamedWList_cons (n : String) (c : Widget) (cs : List Widget) :
    countNamedWList n (c :: cs) = countNamedW n c + countNamedWList n cs := by
  simp [countNamedWList, countNamedW, Widget.preorderList, List.filter_append]

theorem namedStateOf_mk (n : String) (tag : Nat) (idv : Option Id) (st : State)
    (cs : List Tree) :
    namedStateOf n (Tree.mk tag idv st cs) =
      if isNamedAs n (Tree.mk tag idv st cs) = true then Option.some st
      else namedStateListOf n cs := by
  cases hx : isNamedAs n (Tree.mk tag idv st cs) <;>
    simp [namedStateOf, namedStateListOf, Tree.preorder, List.find?_cons, hx, Tree.state]

theorem namedStateListOf_nil (n : String) : namedStateListOf n [] = Option.none := rfl

theorem namedStateListOf_cons (n : String) (c : Tree) (cs : List Tree) :
    namedStateListOf n (c :: cs) =
      (namedStateOf n c).or (namedStateListOf n cs) := by
  simp only [namedStateListOf, namedStateOf, Tree.preorderList, List.find?_append]
  cases (Tree.preorder c).find? (isNamedAs n) <;> rfl

theorem countNamed_zero_namedStateOf (n : String) (c : Tree) (h : countNamed n c = 0) :
    namedStateOf n c = Option.none := by
  rw [namedStateOf, List.find?_eq_none.mpr, Option.map_none']
  intro x hx hpx
  have : x ∈ (Tree.preorder c).filter (isNamedAs n) := List.mem_filter.mpr ⟨hx, hpx⟩
  rw [countNamed, List.length_eq_zero] at h
  simp [h] at this

theorem countNamedList_zero_namedStateListOf (n : String) (cs : List Tree)
    (h : countNamedList n cs = 0) : namedStateListOf n cs = Option.none := by
  rw [namedStateListOf, List.find?_eq_none.mpr, Option.map_none']
  intro x hx hpx
  have : x ∈ (Tree.preorderList cs).filter (isNamedAs n) := List.mem_filter.mpr ⟨hx, hpx⟩
  rw [countNamedList, List.length_eq_zero] at h
  simp [h] at this

theorem countNamed_pos_namedStateOf (n : String) (c : Tree) (h : 0 < countNamed n c) :
    ∃ s0, namedStateOf n c = Option.some s0 := by
  rw [countNamed, List.length_pos] at h
  obtain ⟨x, hx⟩ := List.exists_mem_of_ne_nil _ h
  have hx' := List.mem_filter.mp hx
  have : ((Tree.preorder c).find? (isNamedAs n)).isSome :=
    List.find?_isSome.mpr ⟨x, hx'.1, hx'.2⟩
  obtain ⟨nd, hnd⟩ := Option.isSome_iff_exists.mp this
  exact ⟨nd.state, by rw [namedStateOf, hnd]; rfl⟩

mutual
/-- `take_all_named`'s traversal leaves the registry entry of a name that
does not occur in the subtree untouched (state component). -/
theorem takeGo_preserves_absent (n : String) (t : Tree) (acc : NamedMap)
    (h : countNamed n t = 0) :
    (takeGo t acc).2.lookupState n = acc.lookupState n := by
  cases t with
  | mk tag idv st cs =>
    rw [countNamed_mk] at h
    have hx : isNamedAs n (Tree.mk tag idv st cs) = false := by
      cases hxx : isNamedAs n (Tree.mk tag idv st cs)
      · rfl
      · rw [hxx] at h; simp at h
    have hcs : countNamedList n cs = 0 := by
      rw [hx] at h; simpa using h
    cases hcn : customName idv with
    | none =>
      simp only [takeGo, hcn]
      exact takePlainChildren_preserves_absent n cs acc hcs
    | some n0 =>
      have hne : n0 ≠ n := by
        intro hEq
        subst hEq
        simp [isNamedAs, Tree.id, hcn] at hx
      simp only [takeGo, hcn]
      rw [takeNamedChildren_preserves_absent n n0 cs.length 0 cs _ hcs]
      exact NamedMap.lookupState_insertEntry_ne acc n0 n (st, []) hne

theorem takeNamedChildren_preserves_absent (n n' : String) (k j : Nat) (cs : List Tree)
    (acc : NamedMap) (h : countNamedList n cs = 0) :
    (takeNamedChildren n' k j cs acc).2.lookupState n = acc.lookupState n := by
  cases cs with
  | nil => rfl
  | cons c cs =>
    rw [countNamedList_cons] at h
    have hc : countNamed n c = 0 := by omega
    have hcs : countNamedList n cs = 0 := by omega
    by_cases hnc : isNamed c = true
    · simp only [takeNamedChildren, if_pos hnc]
      rw [takeNamedChildren_preserves_absent n n' k (j + 1) cs _ hcs]
      exact takeGo_preserves_absent n c acc hc
    · simp only [takeNamedChildren, if_neg hnc]
      rw [takeNamedChildren_preserves_absent n n' k (j + 1) cs _ hcs,
        NamedMap.lookupState_pushRecord]
      exact takeGo_preserves_absent n c acc hc

theorem takePlainChildren_preserves_absent (n : String) (cs : List Tree) (acc : NamedMap)
    (h : countNamedList n cs = 0) :
    (takePlainChildren cs acc).2.lookupState n = acc.lookupState n := by
  cases cs with
  | nil => rfl
  | cons c cs =>
    rw [countNamedList_cons] at h
    have hc : countNamed n c = 0 := by omega
    have hcs : countNamedList n cs = 0 := by omega
    simp only [takePlainChildren]
    rw [takeGo_preserves_absent n c _ hc]
    exact takePlainChildren_preserves_absent n cs acc hcs
end

mutual
/-- `take_all_named` records the state of the unique node carrying `n`. -/
theorem takeGo_extracts_named (n : String) (s : State) (t : Tree) (acc : NamedMap)
    (h1 : countNamed n t = 1) (h2 : namedStateOf n t = Option.some s) :
    (takeGo t acc).2.lookupState n = Option.some s := by
  cases t with
  | mk tag idv st cs =>
    rw [countNamed_mk] at h1
    rw [namedStateOf_mk] at h2
    by_cases hx : isNamedAs n (Tree.mk tag idv st cs) = true
    · -- the node itself carries the name; no deeper occurrence
      have hcs : countNamedList n cs = 0 := by rw [if_pos hx] at h1; omega
      have hst : st = s := by rw [if_pos hx] at h2; exact Option.some.inj h2
      have hcn : customName idv = Option.some n := by
        simpa [isNamedAs, Tree.id] using hx
      simp only [takeGo, hcn]
      rw [takeNamedChildren_preserves_absent n n cs.length 0 cs _ hcs,
        NamedMap.lookupState_insertEntry_self acc n (st, [])]
      exact congrArg Option.some hst
    · -- the unique occurrence is deeper
      have hx' : isNamedAs n (Tree.mk tag idv st cs) = false := by
        simpa using hx
      have hcs : countNamedList n cs = 1 := by rw [hx'] at h1; simpa using h1
      have h2' : namedStateListOf n cs = Option.some s := by rwa [if_neg hx] at h2
      cases hcn : customName idv with
      | none =>
        simp only [takeGo, hcn]
        exact takePlainChildren_extracts_named n s cs acc hcs h2'
      | some n0 =>
        simp only [takeGo, hcn]
        exact takeNamedChildren_extracts_named n n0 s cs.length 0 cs _ hcs h2'

theorem takeNamedChildren_extracts_named (n n' : String) (s : State) (k j : Nat)
    (cs : List Tree) (acc : NamedMap)
    (h1 : countNamedList n cs = 1) (h2 : namedStateListOf n cs = Option.some s) :
    (takeNamedChildren n' k j cs acc).2.lookupState n = Option.some s := by
  cases cs with
  | nil => simp [countNamedList_nil] at h1
  | cons c cs =>
    rw [countNamedList_cons] at h1
    rw [namedStateListOf_cons] at h2
    by_cases hhd : countNamed n c = 0
    · have hcs : countNamedList n cs = 1 := by omega
      have h2' : namedStateListOf n cs = Option.some s := by
        rwa [countNamed_zero_namedStateOf n c hhd, Option.none_or] at h2
      by_cases hnc : isNamed c = true
      · simp only [takeNamedChildren, if_pos hnc]
        exact takeNamedChildren_extracts_named n n' s k (j + 1) cs _ hcs h2'
      · simp only [takeNamedChildren, if_neg hnc]
        exact takeNamedChildren_extracts_named n n' s k (j + 1) cs _ hcs h2'
    · have hc1 : countNamed n c = 1 := by omega
      have hcs : countNamedList n cs = 0 := by omega
      obtain ⟨s0, hs0⟩ := countNamed_pos_namedStateOf n c (by omega)
      have hs : s0 = s := by
        have h2' : Option.some s0 = Option.some s := by rw [← h2, hs0]; rfl
        exact Option.some.inj h2'
      subst hs
      by_cases hnc : isNamed c = true
      · simp only [takeNamedChildren, if_pos hnc]
        rw [takeNamedChildren_preserves_absent n n' k (j + 1) cs _ hcs]
        exact takeGo_extracts_named n s0 c acc hc1 hs0
      · simp only [takeNamedChildren, if_neg hnc]
        rw [takeNamedChildren_preserves_absent n n' k (j + 1) cs _ hcs,
          NamedMap.lookupState_pushRecord]
        exact takeGo_extracts_named n s0 c acc hc1 hs0

theorem takePlainChildren_extracts_named (n : String) (s : State) (cs : List Tree)
    (acc : NamedMap) (h1 : countNamedList n cs = 1)
    (h2 : namedStateListOf n cs = Option.some s) :
    (takePlainChildren cs acc).2.lookupState n = Option.some s := by
  cases cs with
  | nil => simp [countNamedList_nil] at h1
  | cons c cs =>
    rw [countNamedList_cons] at h1
    rw [namedStateListOf_cons] at h2
    by_cases hhd : countNamed n c = 0
    · have hcs : countNamedList n cs = 1 := by omega
      have h2' : namedStateListOf n cs = Option.some s := by
        rwa [countNamed_zero_namedStateOf n c hhd, Option.none_or] at h2
      simp only [takePlainChildren]
      rw [takeGo_preserves_absent n c _ hhd]
      exact takePlainChildren_extracts_named n s cs acc hcs h2'
    · have hc1 : countNamed n c = 1 := by omega
      have hcs : countNamedList n cs = 0 := by omega
      obtain ⟨s0, hs0⟩ := countNamed_pos_namedStateOf n c (by omega)
      have hs : s0 = s := by
        have h2' : Option.some s0 = Option.some s := by rw [← h2, hs0]; rfl
        exact Option.some.inj h2'
      subst hs
      simp only [takePlainChildren]
      exact takeGo_extracts_named n s0 c _ hc1 hs0
end

/-! Diff-side auxiliary lemmas. -/

theorem idMapLookup_mem (im : List (String × Nat)) (nm : String) (p : Nat)
    (h : idMapLookup im nm = Option.some p) : (nm, p) ∈ im := by
  induction im with
  | nil => simp [idMapLookup] at h
  | cons e im ih =>
    obtain ⟨k, i⟩ := e
    rw [idMapLookup] at h
    by_cases hk : k = nm
    · rw [if_pos hk] at h
      subst hk
      obtain rfl := Option.some.inj h
      exact List.mem_cons_self _ _
    · rw [if_neg hk] at h
      exact List.mem_cons_of_mem _ (ih h)

theorem idMapRemove_cases (im : List (String × Nat)) (nm : String) (p : Nat)
    (im' : List (String × Nat)) (h : idMapRemove im nm = Option.some (p, im')) :
    (nm, p) ∈ im ∧ im' = im.filter (fun q => q.1 ≠ nm) := by
  rw [idMapRemove] at h
  cases hl : idMapLookup im nm with
  | none => rw [hl] at h; simp at h
  | some q =>
    rw [hl] at h
    obtain ⟨rfl, rfl⟩ : q = p ∧ im.filter (fun q => q.1 ≠ nm) = im' := by
      have := Option.some.inj h
      exact ⟨congrArg Prod.fst this, congrArg Prod.snd this⟩
    exact ⟨idMapLookup_mem im nm _ hl, rfl⟩

theorem idMapRemove_pos_mem (im : List (String × Nat)) (nm : String) (p : Nat)
    (im' : List (String × Nat)) (h : idMapRemove im nm = Option.some (p, im')) :
    p ∈ im.map Prod.snd :=
  List.mem_map.mpr ⟨(nm, p), (idMapRemove_cases im nm p im' h).1, rfl⟩

theorem idMapRemove_sub (im : List (String × Nat)) (nm : String) (p : Nat)
    (im' : List (String × Nat)) (h : idMapRemove im nm = Option.some (p, im')) :
    im'.map Prod.snd ⊆ im.map Prod.snd := by
  rw [(idMapRemove_cases im nm p im' h).2]
  exact fun q hq => by
    obtain ⟨e, he, rfl⟩ := List.mem_map.mp hq
    exact List.mem_map.mpr ⟨e, List.mem_of_mem_filter he, rfl⟩

theorem idMapRemove_not_mem (im : List (String × Nat)) (nm : String) (p : Nat)
    (im' : List (String × Nat)) (hnd : (im.map Prod.snd).Nodup)
    (h : idMapRemove im nm = Option.some (p, im')) : p ∉ im'.map Prod.snd := by
  obtain ⟨hmem, rfl⟩ := idMapRemove_cases im nm p im' h
  intro hp
  obtain ⟨e, he, hesnd⟩ := List.mem_map.mp hp
  have he1 : e ∈ im := List.mem_of_mem_filter he
  have he2 : ¬ (e.1 = nm) := by
    have := List.of_mem_filter he
    simpa using this
  have := List.inj_on_of_nodup_map hnd he1 hmem (by simpa using hesnd)
  exact he2 (by rw [this])

theorem diffLoop_length (ws : List Widget) : ∀ (m : NamedMap) (cs : List Tree)
    (im : List (String × Nat)) (il : List Nat) (csi i : Nat) (lc : Bool)
    (nts : List (Tree × Nat)),
    (diffLoop m cs im il csi i lc ws nts).2.1.length = cs.length := by
  induction ws with
  | nil => intro m cs im il csi i lc nts; rfl
  | cons w ws ih =>
    intro m cs im il csi i lc nts
    simp only [diffLoop]
    cases h : idMapRemoveName im (customName w.id) with
    | some r0 =>
      simp only [h]
      rw [ih]
      exact List.length_set cs _ _
    | none =>
      simp only [h]
      split
      · rw [ih]
        exact List.length_set cs _ _
      · rw [ih]

theorem diffLoop_nts_mem (ws : List Widget) : ∀ (m : NamedMap) (cs : List Tree)
    (im : List (String × Nat)) (il : List Nat) (csi i : Nat) (lc : Bool)
    (nts : List (Tree × Nat)) (x : Tree × Nat), x ∈ nts →
    x ∈ (diffLoop m cs im il csi i lc ws nts).2.2 := by
  induction ws with
  | nil => intro m cs im il csi i lc nts x hx; exact hx
  | cons w ws ih =>
    intro m cs im il csi i lc nts x hx
    simp only [diffLoop]
    cases h : idMapRemoveName im (customName w.id) with
    | some r0 =>
      simp only [h]
      exact ih _ _ _ _ _ _ _ _ x hx
    | none =>
      simp only [h]
      split
      · exact ih _ _ _ _ _ _ _ _ x hx
      · exact ih _ _ _ _ _ _ _ _ x (List.mem_append_left _ hx)

theorem diffLoop_stable (ws : List Widget) : ∀ (m : NamedMap) (cs : List Tree)
    (im : List (String × Nat)) (il : List Nat) (csi i : Nat) (lc : Bool)
    (nts : List (Tree × Nat)) (idx : Nat),
    idx ∉ im.map Prod.snd ++ il.drop csi →
    (diffLoop m cs im il csi i lc ws nts).2.1.getD idx default = cs.getD idx default := by
  induction ws with
  | nil => intro m cs im il csi i lc nts idx _; rfl
  | cons w ws ih =>
    intro m cs im il csi i lc nts idx hidx
    rw [List.mem_append] at hidx
    push_neg at hidx
    simp only [diffLoop]
    cases h : idMapRemoveName im (customName w.id) with
    | some r0 =>
      simp only [h]
      have hrem : idMapRemove im ((customName w.id).getD "") = Option.some r0 := by
        cases hcn : customName w.id with
        | none => rw [hcn] at h; simp [idMapRemoveName] at h
        | some nm => rw [hcn] at h; exact h
      have htgt : r0.1 ∈ im.map Prod.snd :=
        idMapRemove_pos_mem im _ r0.1 r0.2 hrem
      rw [ih _ _ _ _ _ _ _ _ idx (by
        rw [List.mem_append]
        push_neg
        exact ⟨fun hc => hidx.1 (idMapRemove_sub im _ r0.1 r0.2 hrem hc), hidx.2⟩)]
      exact getD_set_ne cs r0.1 idx _ (fun hEq => hidx.1 (hEq ▸ htgt))
    | none =>
      simp only [h]
      split
      · rename_i hguard
        have hlt : csi < il.length := by
          rcases Bool.and_eq_true .. |>.mp hguard with ⟨h1, _⟩
          simpa using h1
        have htgt : il.getD csi 0 ∈ il.drop csi := by
          rw [List.getD_eq_getElem il 0 hlt, List.drop_eq_getElem_cons hlt]
          exact List.mem_cons_self _ _
        have hsub : il.drop (csi + 1) ⊆ il.drop csi := by
          rw [List.drop_eq_getElem_cons hlt]
          exact List.subset_cons_self _ _
        rw [ih _ _ _ _ _ _ _ _ idx (by
          rw [List.mem_append]
          push_neg
          exact ⟨hidx.1, fun hc => hidx.2 (hsub hc)⟩)]
        exact getD_set_ne cs _ idx _ (fun hEq => hidx.2 (hEq ▸ htgt))
      · exact ih _ _ _ _ _ _ _ _ idx (by
          rw [List.mem_append]
          push_neg
          exact hidx)

theorem buildMapsGo_nodup (cs : List Tree) : ∀ (i : Nat) (im : List (String × Nat))
    (il : List Nat),
    (im.map Prod.snd ++ il).Nodup → (∀ p ∈ im.map Prod.snd ++ il, p < i) →
    ((buildMapsGo cs i im il).1.map Prod.snd ++ (buildMapsGo cs i im il).2).Nodup ∧
    (∀ p ∈ (buildMapsGo cs i im il).1.map Prod.snd ++ (buildMapsGo cs i im il).2,
      p < i + cs.length) := by
  induction cs with
  | nil =>
    intro i im il h1 h2
    exact ⟨h1, fun p hp => by have := h2 p hp; simpa using by omega⟩
  | cons c cs ih =>
    intro i im il h1 h2
    simp only [buildMapsGo]
    cases hcn : customName c.id with
    | some n =>
      have hnodup : ((idMapInsert im n i).map Prod.snd ++ il).Nodup := by
        rw [idMapInsert, List.map_cons, List.cons_append]
        refine List.nodup_cons.mpr ⟨?_, ?_⟩
        · intro hmem
          rw [List.mem_append] at hmem
          rcases hmem with hm | hm
          · obtain ⟨e, he, hee⟩ := List.mem_map.mp hm
            have hmm : (i : Nat) ∈ im.map Prod.snd :=
              List.mem_map.mpr ⟨e, List.mem_of_mem_filter he, hee⟩
            have := h2 i (List.mem_append_left _ hmm)
            omega
          · have := h2 i (List.mem_append_right _ hm)
            omega
        · exact h1.sublist (((List.filter_sublist im).map Prod.snd).append_right il)
      have hbound : ∀ p ∈ (idMapInsert im n i).map Prod.snd ++ il, p < i + 1 := by
        intro p hp
        rw [idMapInsert, List.map_cons, List.cons_append, List.mem_cons] at hp
        rcases hp with rfl | hp
        · omega
        · rw [List.mem_append] at hp
          rcases hp with hm | hm
          · obtain ⟨e, he, hee⟩ := List.mem_map.mp hm
            have hmm : p ∈ im.map Prod.snd :=
              List.mem_map.mpr ⟨e, List.mem_of_mem_filter he, hee⟩
            have := h2 p (List.mem_append_left _ hmm)
            omega
          · have := h2 p (List.mem_append_right _ hm)
            omega
      obtain ⟨ha, hb⟩ := ih (i + 1) (idMapInsert im n i) il hnodup hbound
      refine ⟨ha, fun p hp => ?_⟩
      have := hb p hp
      simp only [List.length_cons]
      omega
    | none =>
      have hnodup : (im.map Prod.snd ++ (il ++ [i])).Nodup := by
        rw [← List.append_assoc, List.nodup_append]
        refine ⟨h1, List.nodup_singleton i, ?_⟩
        intro a ha hb
        rw [List.mem_singleton] at hb
        subst hb
        have := h2 a ha
        omega
      have hbound : ∀ p ∈ im.map Prod.snd ++ (il ++ [i]), p < i + 1 := by
        intro p hp
        rw [← List.append_assoc, List.mem_append] at hp
        rcases hp with hm | hm
        · have := h2 p hm
          omega
        · rw [List.mem_singleton] at hm
          omega
      obtain ⟨ha, hb⟩ := ih (i + 1) im (il ++ [i]) hnodup hbound
      refine ⟨ha, fun p hp => ?_⟩
      have := hb p hp
      simp only [List.length_cons]
      omega

theorem buildMaps_nodup (cs : List Tree) :
    ((buildMaps cs).1.map Prod.snd ++ (buildMaps cs).2).Nodup ∧
    (∀ p ∈ (buildMaps cs).1.map Prod.snd ++ (buildMaps cs).2, p < cs.length) := by
  have := buildMapsGo_nodup cs 0 [] [] (by simp) (by simp)
  simpa [buildMaps] using this

theorem listInsertIdx_mem {α : Type} (cs : List α) (k : Nat) (a x : α) (h : x ∈ cs) :
    x ∈ listInsertIdx cs k a := by
  induction cs generalizing k with
  | nil => cases h
  | cons c cs ih =>
    cases k with
    | zero => exact List.mem_cons_of_mem _ h
    | succ k =>
      rw [listInsertIdx]
      rcases List.mem_cons.mp h with rfl | h
      · exact List.mem_cons_self _ _
      · exact List.mem_cons_of_mem _ (ih k h)

theorem listInsertIdx_mem_self {α : Type} (cs : List α) (k : Nat) (a : α) :
    a ∈ listInsertIdx cs k a := by
  induction cs generalizing k with
  | nil => cases k <;> simp [listInsertIdx]
  | cons c cs ih =>
    cases k with
    | zero => exact List.mem_cons_self _ _
    | succ k => exact List.mem_cons_of_mem _ (ih k)

theorem insertAll_mem_left (cs : List Tree) (nts : List (Tree × Nat)) (x : Tree)
    (h : x ∈ cs) : x ∈ insertAll cs nts := by
  induction nts generalizing cs with
  | nil => exact h
  | cons p rest ih => exact ih _ (listInsertIdx_mem _ _ _ _ h)

theorem insertAll_mem_nts (cs : List Tree) (nts : List (Tree × Nat)) (x : Tree × Nat)
    (h : x ∈ nts) : x.1 ∈ insertAll cs nts := by
  induction nts generalizing cs with
  | nil => cases h
  | cons p rest ih =>
    rcases List.mem_cons.mp h with rfl | h
    · rw [insertAll]
      exact insertAll_mem_left _ _ _ (listInsertIdx_mem_self _ _ _)
    · rw [insertAll]
      exact ih _ h

theorem preorderList_mem_of (c : Tree) (cs : List Tree) (nd : Tree) (hc : c ∈ cs)
    (h : nd ∈ Tree.preorder c) : nd ∈ Tree.preorderList cs := by
  induction cs with
  | nil => cases hc
  | cons c0 cs ih =>
    rw [Tree.preorderList, List.mem_append]
    rcases List.mem_cons.mp hc with rfl | hc
    · exact Or.inl h
    · exact Or.inr (ih hc)

theorem containsState_root (tag : Nat) (idv : Option Id) (st : State) (cs : List Tree) :
    containsState st (Tree.mk tag idv st cs) := by
  simp [containsState, treeStates, Tree.preorder, Tree.state]

theorem containsState_child (s : State) (c : Tree) (tag : Nat) (idv : Option Id)
    (st : State) (cs : List Tree) (hc : c ∈ cs) (h : containsState s c) :
    containsState s (Tree.mk tag idv st cs) := by
  simp only [containsState, treeStates, Tree.preorder, List.map_cons, List.mem_cons]
  right
  obtain ⟨nd, hnd, hs⟩ := List.mem_map.mp h
  exact List.mem_map.mpr ⟨nd, preorderList_mem_of c cs nd hc hnd, hs⟩

theorem getD_mem (l : List Tree) (k : Nat) (h : k < l.length) : l.getD k default ∈ l := by
  rw [List.getD_eq_getElem l default h]
  exact List.getElem_mem h

theorem NamedMap.removeGet_cases (m : NamedMap) (n : String) (e : NamedEntry)
    (m' : NamedMap) (h : m.removeGet n = Option.some (e, m')) :
    m.lookup n = Option.some e ∧ m' = m.erase n := by
  rw [NamedMap.removeGet] at h
  cases hl : m.lookup n with
  | none => rw [hl] at h; simp at h
  | some e0 =>
    rw [hl] at h
    have h2 := Option.some.inj h
    exact ⟨congrArg Option.some (congrArg Prod.fst h2), (congrArg Prod.snd h2).symm⟩

mutual
/-- `diff` never touches the registry entry of a name that occurs nowhere in
the widget tree being reconciled. -/
theorem diff_preserves_other_names (n : String) (w : Widget) :
    ∀ (m : NamedMap) (t : Tree), countNamedW n w = 0 →
    (Tree.diff m t w).1.lookupState n = m.lookupState n := by
  cases w with
  | mk wtag wid wst wcs =>
    intro m t h
    rw [countNamedW_mk] at h
    have hx : wNamedAs n (Widget.mk wtag wid wst wcs) = false := by
      cases hxx : wNamedAs n (Widget.mk wtag wid wst wcs)
      · rfl
      · rw [hxx] at h; simp at h
    have hcs : countNamedWList n wcs = 0 := by rw [hx] at h; simpa using h
    cases hcn : customName wid with
    | none =>
      simp only [Tree.diff, hcn]
      rw [diffLoop_preserves_other_names n wcs hcs]
      split
      · split <;> rfl
      · rfl
    | some n0 =>
      have hne : n0 ≠ n := by
        intro hEq
        subst hEq
        simp [wNamedAs, Widget.id, hcn] at hx
      simp only [Tree.diff, hcn]
      cases hrg : m.removeGet n0 with
      | none =>
        simp only [hrg]
        rw [diffLoop_preserves_other_names n wcs hcs]
      | some pr =>
        obtain ⟨e, m1⟩ := pr
        obtain ⟨hlk, hm1⟩ := NamedMap.removeGet_cases m n0 e m1 hrg
        simp only [hrg]
        rw [diffLoop_preserves_other_names n wcs hcs]
        subst hm1
        split <;> exact NamedMap.lookupState_erase_ne m n0 n hne

theorem diffLoop_preserves_other_names (n : String) (ws : List Widget) :
    countNamedWList n ws = 0 →
    ∀ (m : NamedMap) (cs : List Tree) (im : List (String × Nat)) (il : List Nat)
      (csi i : Nat) (lc : Bool) (nts : List (Tree × Nat)),
    (diffLoop m cs im il csi i lc ws nts).1.lookupState n = m.lookupState n := by
  cases ws with
  | nil => intro h m cs im il csi i lc nts; rfl
  | cons w ws =>
    intro h m cs im il csi i lc nts
    rw [countNamedWList_cons] at h
    have hw : countNamedW n w = 0 := by omega
    have hws : countNamedWList n ws = 0 := by omega
    simp only [diffLoop]
    cases hir : idMapRemoveName im (customName w.id) with
    | some r0 =>
      simp only [hir]
      rw [diffLoop_preserves_other_names n ws hws, diff_preserves_other_names n w _ _ hw]
    | none =>
      simp only [hir]
      split
      · rw [diffLoop_preserves_other_names n ws hws, diff_preserves_other_names n w _ _ hw]
      · rw [diffLoop_preserves_other_names n ws hws, diff_preserves_other_names n w _ _ hw]
end

theorem insertAll_contains (s : State) (tag : Nat) (idv : Option Id) (st : State)
    (cs1 : List Tree) (nts : List (Tree × Nat))
    (h : (∃ c ∈ cs1, containsState s c) ∨ (∃ x ∈ nts, containsState s x.1)) :
    containsState s (Tree.mk tag idv st (insertAll cs1 nts)) := by
  rcases h with ⟨c, hc, hcont⟩ | ⟨x, hx, hcont⟩
  · exact containsState_child s c _ _ _ _ (insertAll_mem_left _ _ _ hc) hcont
  · exact containsState_child s x.1 _ _ _ _ (insertAll_mem_nts _ _ _ hx) hcont

mutual
/-- When the registry maps `n` to state `s` and the widget tree contains
exactly one widget named `n`, the state instance `s` reappears somewhere in
the tree produced by `diff`. -/
theorem diff_reattaches_named (n : String) (s : State) (w : Widget) :
    ∀ (m : NamedMap) (t : Tree), countNamedW n w = 1 →
    m.lookupState n = Option.some s →
    containsState s (Tree.diff m t w).2 := by
  cases w with
  | mk wtag wid wst wcs =>
    intro m t h1 h2
    rw [countNamedW_mk] at h1
    by_cases hx : wNamedAs n (Widget.mk wtag wid wst wcs) = true
    · -- the widget itself carries the name: the found branch swaps `s` into
      -- the node's own state, which the hook never touches
      have hcn : customName wid = Option.some n := by
        simpa [wNamedAs, Widget.id] using hx
      cases he : m.lookup n with
      | none => rw [NamedMap.lookupState, he] at h2; simp at h2
      | some e =>
        have hes : e.1 = s := by
          rw [NamedMap.lookupState, he] at h2
          simpa using h2
        have hrg : m.removeGet n = Option.some (e, m.erase n) := by
          rw [NamedMap.removeGet, he]
        simp only [Tree.diff, hcn, hrg]
        split <;>
          (simp only [Tree.state, Tree.tag, Tree.id]
           rw [← hes]
           exact containsState_root _ _ _ _)
    · -- the unique named widget sits among the children: it is reconciled by
      -- the hook's loop, which re-attaches `s` there
      have hx' : wNamedAs n (Widget.mk wtag wid wst wcs) = false := by simpa using hx
      have hcs : countNamedWList n wcs = 1 := by rw [hx'] at h1; simpa using h1
      have hfin : ∀ (m' : NamedMap) (a : Nat) (b : Option Id) (c : State)
          (cs0 : List Tree) (lc : Bool), m'.lookupState n = Option.some s →
          containsState s (Tree.mk a b c
            (insertAll
              (diffLoop m' cs0 (buildMaps cs0).1 (buildMaps cs0).2 0 0 lc wcs []).2.1
              (diffLoop m' cs0 (buildMaps cs0).1 (buildMaps cs0).2 0 0 lc wcs []).2.2)) := by
        intro m' a b c cs0 lc h2'
        obtain ⟨hnd0, hb0⟩ := buildMaps_nodup cs0
        refine insertAll_contains s a b c _ _ ?_
        exact diffLoop_reattaches_named n s wcs m' cs0 (buildMaps cs0).1
          (buildMaps cs0).2 0 0 lc [] hcs h2' (by simpa using hnd0) (by simpa using hb0)
      cases hcn : customName wid with
      | none =>
        simp only [Tree.diff, hcn]
        split
        · split
          · exact hfin m _ _ _ _ _ h2
          · exact hfin m _ _ _ _ _ h2
        · exact hfin m _ _ _ _ _ h2
      | some n0 =>
        have hne : n0 ≠ n := by
          intro hEq
          subst hEq
          simp [wNamedAs, Widget.id, hcn] at hx'
        cases hrg : m.removeGet n0 with
        | none =>
          simp only [Tree.diff, hcn, hrg]
          exact hfin m _ _ _ _ _ h2
        | some pr =>
          obtain ⟨e, m1⟩ := pr
          obtain ⟨hlk, hm1⟩ := NamedMap.removeGet_cases m n0 e m1 hrg
          have h2' : m1.lookupState n = Option.some s := by
            subst hm1
            rw [NamedMap.lookupState_erase_ne m n0 n hne]
            exact h2
          simp only [Tree.diff, hcn, hrg]
          split
          · exact hfin m1 _ _ _ _ _ h2'
          · exact hfin m1 _ _ _ _ _ h2'

theorem diffLoop_reattaches_named (n : String) (s : State) (ws : List Widget) :
    ∀ (m : NamedMap) (cs : List Tree) (im : List (String × Nat)) (il : List Nat)
      (csi i : Nat) (lc : Bool) (nts : List (Tree × Nat)),
    countNamedWList n ws = 1 → m.lookupState n = Option.some s →
    (im.map Prod.snd ++ il.drop csi).Nodup →
    (∀ p ∈ im.map Prod.snd ++ il.drop csi, p < cs.length) →
    (∃ c ∈ (diffLoop m cs im il csi i lc ws nts).2.1, containsState s c) ∨
    (∃ x ∈ (diffLoop m cs im il csi i lc ws nts).2.2, containsState s x.1) := by
  cases ws with
  | nil =>
    intro m cs im il csi i lc nts h1 _ _ _
    rw [countNamedWList_nil] at h1
    omega
  | cons w ws =>
    intro m cs im il csi i lc nts h1 h2 hnd hbound
    rw [countNamedWList_cons] at h1
    by_cases hw1 : countNamedW n w = 0
    · -- the named widget is deeper in the remaining list
      have hws : countNamedWList n ws = 1 := by omega
      simp only [diffLoop]
      cases hir : idMapRemoveName im (customName w.id) with
      | some r0 =>
        simp only [hir]
        have hrem : idMapRemove im ((customName w.id).getD "") = Option.some r0 := by
          cases hcn : customName w.id with
          | none => rw [hcn] at hir; simp [idMapRemoveName] at hir
          | some nm => rw [hcn] at hir; exact hir
        obtain ⟨-, hfil⟩ := idMapRemove_cases im _ r0.1 r0.2 (by
          cases r0; exact hrem)
        have h2' : (Tree.diff m (cs.getD r0.1 default) w).1.lookupState n =
            Option.some s := by
          rw [diff_preserves_other_names n w _ _ hw1]
          exact h2
        refine diffLoop_reattaches_named n s ws _ _ r0.2 il csi (i + 1) lc nts hws h2' ?_ ?_
        · exact hnd.sublist ((hfil ▸ (List.filter_sublist im).map Prod.snd).append_right _)
        · intro p hp
          rw [List.length_set]
          refine hbound p ?_
          rw [List.mem_append] at hp ⊢
          rcases hp with hm | hm
          · exact Or.inl (idMapRemove_sub im _ r0.1 r0.2 (by cases r0; exact hrem) hm)
          · exact Or.inr hm
      | none =>
        simp only [hir]
        split
        · rename_i hguard
          have hlt : csi < il.length := by
            rcases (Bool.and_eq_true _ _).mp hguard with ⟨hg1, -⟩
            simpa using hg1
          have hdropeq : il.drop csi = il.getD csi 0 :: il.drop (csi + 1) := by
            rw [List.getD_eq_getElem il 0 hlt]
            exact List.drop_eq_getElem_cons hlt
          have h2' : (Tree.diff m
              (if lc = true then Tree.mk (cs.getD (il.getD csi 0) default).tag w.id
                (cs.getD (il.getD csi 0) default).state
                (cs.getD (il.getD csi 0) default).children
              else cs.getD (il.getD csi 0) default) w).1.lookupState n =
              Option.some s := by
            rw [diff_preserves_other_names n w _ _ hw1]
            exact h2
          refine diffLoop_reattaches_named n s ws _ _ im il (csi + 1) (i + 1) lc nts hws h2' ?_ ?_
          · refine hnd.sublist (List.Sublist.append_left ?_ _)
            rw [hdropeq]
            exact List.sublist_cons_self _ _
          · intro p hp
            rw [List.length_set]
            refine hbound p ?_
            rw [List.mem_append] at hp ⊢
            rcases hp with hm | hm
            · exact Or.inl hm
            · refine Or.inr ?_
              rw [hdropeq]
              exact List.mem_cons_of_mem _ hm
        · have h2' : (Tree.diff m (Tree.new w) w).1.lookupState n = Option.some s := by
            rw [diff_preserves_other_names n w _ _ hw1]
            exact h2
          exact diffLoop_reattaches_named n s ws _ _ im il csi (i + 1) lc
            (nts ++ [((Tree.diff m (Tree.new w) w).2, i)]) hws h2' hnd hbound
    · -- the named widget is the head of the list
      have hw1' : countNamedW n w = 1 := by omega
      simp only [diffLoop]
      cases hir : idMapRemoveName im (customName w.id) with
      | some r0 =>
        simp only [hir]
        have hrem : idMapRemove im ((customName w.id).getD "") = Option.some r0 := by
          cases hcn : customName w.id with
          | none => rw [hcn] at hir; simp [idMapRemoveName] at hir
          | some nm => rw [hcn] at hir; exact hir
        have hcont : containsState s (Tree.diff m (cs.getD r0.1 default) w).2 :=
          diff_reattaches_named n s w m _ hw1' h2
        have hmem : r0.1 ∈ im.map Prod.snd :=
          idMapRemove_pos_mem im _ r0.1 r0.2 (by cases r0; exact hrem)
        have hlt : r0.1 < cs.length := hbound _ (List.mem_append_left _ hmem)
        have hndparts := List.nodup_append.mp hnd
        have hstab := diffLoop_stable ws (Tree.diff m (cs.getD r0.1 default) w).1
          (cs.set r0.1 (Tree.diff m (cs.getD r0.1 default) w).2) r0.2 il csi (i + 1)
          lc nts r0.1 (by
            rw [List.mem_append]
            push_neg
            refine ⟨idMapRemove_not_mem im _ r0.1 r0.2 hndparts.1 (by cases r0; exact hrem), ?_⟩
            exact fun hc => hndparts.2.2 hmem hc)
        left
        refine ⟨_, getD_mem _ r0.1 ?_, ?_⟩
        · rw [diffLoop_length, List.length_set]
          exact hlt
        · rw [hstab, getD_set_self _ _ _ hlt]
          exact hcont
      | none =>
        simp only [hir]
        split
        · rename_i hguard
          have hlt : csi < il.length := by
            rcases (Bool.and_eq_true _ _).mp hguard with ⟨hg1, -⟩
            simpa using hg1
          have hdropeq : il.drop csi = il.getD csi 0 :: il.drop (csi + 1) := by
            rw [List.getD_eq_getElem il 0 hlt]
            exact List.drop_eq_getElem_cons hlt
          have hidxmem : il.getD csi 0 ∈ il.drop csi := by
            rw [hdropeq]
            exact List.mem_cons_self _ _
          have hidxlt : il.getD csi 0 < cs.length :=
            hbound _ (List.mem_append_right _ hidxmem)
          have hcont : containsState s (Tree.diff m
              (if lc = true then Tree.mk (cs.getD (il.getD csi 0) default).tag w.id
                (cs.getD (il.getD csi 0) default).state
                (cs.getD (il.getD csi 0) default).children
              else cs.getD (il.getD csi 0) default) w).2 :=
            diff_reattaches_named n s w m _ hw1' h2
          have hndparts : (im.map Prod.snd ++ (il.getD csi 0 :: il.drop (csi + 1))).Nodup := by
            rw [← hdropeq]
            exact hnd
          have hstab := diffLoop_stable ws
            (Tree.diff m
              (if lc = true then Tree.mk (cs.getD (il.getD csi 0) default).tag w.id
                (cs.getD (il.getD csi 0) default).state
                (cs.getD (il.getD csi 0) default).children
              else cs.getD (il.getD csi 0) default) w).1
            (cs.set (il.getD csi 0)
              (Tree.diff m
                (if lc = true then Tree.mk (cs.getD (il.getD csi 0) default).tag w.id
                  (cs.getD (il.getD csi 0) default).state
                  (cs.getD (il.getD csi 0) default).children
                else cs.getD (il.getD csi 0) default) w).2)
            im il (csi + 1) (i + 1) lc nts (il.getD csi 0) (by
              rw [List.mem_append]
              push_neg
              have hparts := List.nodup_append.mp hndparts
              refine ⟨fun hc => hparts.2.2 hc (List.mem_cons_self _ _), ?_⟩
              exact (List.nodup_cons.mp hparts.2.1).1)
          left
          refine ⟨_, getD_mem _ (il.getD csi 0) ?_, ?_⟩
          · rw [diffLoop_length, List.length_set]
            exact hidxlt
          · rw [hstab, getD_set_self _ _ _ hidxlt]
            exact hcont
        · have hcont : containsState s (Tree.diff m (Tree.new w) w).2 :=
            diff_reattaches_named n s w m _ hw1' h2
          right
          refine ⟨((Tree.diff m (Tree.new w) w).2, i), ?_, hcont⟩
          refine diffLoop_nts_mem ws _ _ _ _ csi (i + 1) lc _ _ ?_
          exact List.mem_append_right _ (List.mem_singleton.mpr rfl)
end

/-- C3 (amended): a single reconciliation pass — `take_all_named` populating
the registry, then `diff` against the new widget tree — preserves the State
instance of a widget named `n` even when the widget moved to a different
parent or position, provided the old tree contains exactly one node carrying
`n` and the new widget tree exactly one widget carrying `n`: the state
instance reappears in the resulting tree.  (A sequence of such passes
preserves it as long as every intermediate tree keeps the name unique; the
counterexample shows a stale husk breaking exactly that.) -/
theorem C3_single_pass_preserves_named_state (n : String) (s : State) (t : Tree)
    (w : Widget) (h1 : countNamed n t = 1) (h2 : namedStateOf n t = Option.some s)
    (h3 : countNamedW n w = 1) :
    containsState s (reconcile t w) := by
  rw [reconcile]
  have hmap : (t.take_all_named).2.lookupState n = Option.some s :=
    takeGo_extracts_named n s t [] h1 h2
  exact diff_reattaches_named n s w _ _ h3 hmap

theorem C3_witness :
    countNamed "x" tScenarioReorder = 1 ∧
    namedStateOf "x" tScenarioReorder = Option.some (.some 1) ∧
    countNamedW "x" wScenarioReorder = 1 ∧
    containsState (.some 1) (reconcile tScenarioReorder wScenarioReorder) :=
  ⟨rfl, rfl, rfl,
    C3_single_pass_preserves_named_state "x" (.some 1) tScenarioReorder
      wScenarioReorder rfl rfl rfl⟩

set_option maxHeartbeats 4000000 in
/-- C3 counterexample: a named widget `"n"` that moves to a different parent
in pass 1 and back in pass 2 loses its state: pass 1 preserves the state
token 7 but leaves a stale stateless husk named `"n"` at the old position;
pass 2's `take_all_named` visits the husk after the live node and its
`HashMap::insert` overwrites the real entry, so token 7 is absent from the
tree after pass 2. -/
theorem C3_counterexample :
    countNamed "n" tRoundTrip = 1 ∧
    countNamedW "n" wRoundTrip1 = 1 ∧ countNamedW "n" wRoundTrip2 = 1 ∧
    containsState (.some 7) tRoundTrip ∧
    containsState (.some 7) (reconcile tRoundTrip wRoundTrip1) ∧
    ¬ containsState (.some 7) (reconcile (reconcile tRoundTrip wRoundTrip1) wRoundTrip2) := by
  exact ⟨rfl, rfl, rfl, by decide, by decide, by decide⟩

end Iced
